import Mathlib

/-!
# Verification of the MyLaw-RAG hybrid retrieval core

A shallow embedding, in Lean 4, of the retrieval and segmentation core of
the MyLaw-RAG repository:

* `src/ingestion/chunker.py` — structure-aware segmentation of legal text
  (`find_sections`, `find_current_part`, `split_large_section`,
  `chunk_document`), including faithful models of the three regular
  expressions it uses (`SECTION_PATTERN`, `PART_PATTERN`,
  `SUBSECTION_PATTERN`) specialised to their concrete patterns;
* `src/retrieval/hybrid_retriever.py` — the hybrid retriever
  (`_tokenize`, `_keyword_search`, `_semantic_search`,
  `_reciprocal_rank_fusion`, `retrieve`).

External capabilities (the `tiktoken` token counter, the ChromaDB vector
search and the `rank_bm25` scoring function) are modelled as oracle
function parameters, exactly at the boundaries where the Python code calls
into them.  Python text is modelled as `List Char` (character positions in
Python slices are character offsets), Python `float` scores as `ℚ`, and
Python `dict`s as insertion-ordered association lists.
-/

set_option maxRecDepth 4000
set_option synthInstance.maxHeartbeats 400000

/-- Python text: a list of characters (Python string indices are character
offsets, matching `List` positions). -/
abbrev Str := List Char

/-- Characters Python's `str.strip()` removes (ASCII whitespace). -/
def isPySpace (c : Char) : Bool :=
  c = ' ' || c = '\t' || c = '\n' || c = '\r' || c = '\x0b' || c = '\x0c'

/-- Python `str.strip()`: drop leading and trailing whitespace. -/
def pyStrip (l : Str) : Str :=
  ((l.dropWhile isPySpace).reverse.dropWhile isPySpace).reverse

/-- Decimal digits of a natural number, with structural fuel (any
`fuel > n` suffices, and `natStr` passes `n + 1`). -/
def natStrAux : Nat → Nat → Str
  | 0, _ => []
  | fuel + 1, n =>
    if n < 10 then [Char.ofNat (48 + n)]
    else natStrAux fuel (n / 10) ++ [Char.ofNat (48 + n % 10)]

/-- Decimal representation of a natural number (Python `str(n)` for `n ≥ 0`). -/
def natStr (n : Nat) : Str := natStrAux (n + 1) n

/-- Decimal representation of a Python `int` (with `-` sign when negative). -/
def intStr (n : Int) : Str :=
  if n < 0 then '-' :: natStr n.natAbs else natStr n.toNat

/-- Python `text.split("\n\n")`: split at each non-overlapping occurrence of
the separator, scanning left to right. -/
def splitParas : Str → List Str
  | [] => [[]]
  | '\n' :: '\n' :: rest =>
    [] :: splitParas rest
  | c :: rest =>
    match splitParas rest with
    | [] => [[c]]
    | h :: t => (c :: h) :: t

/-- The `"\n\n"` separator used by the paragraph split and by chunk merging. -/
def nlnl : Str := ['\n', '\n']

/-- First-match lookup in an association list (Python `k in d` / `d[k]`). -/
def alookup {α : Type} (d : List (Str × α)) (k : Str) : Option α :=
  match d with
  | [] => none
  | (k', v) :: rest => if k' = k then some v else alookup rest k

/-- Python `d[k] = v`: update the first entry in place, else append. -/
def aset {α : Type} (d : List (Str × α)) (k : Str) (v : α) : List (Str × α) :=
  match d with
  | [] => [(k, v)]
  | (k', v') :: rest => if k' = k then (k, v) :: rest else (k', v') :: aset rest k v

/-- Python `defaultdict(float)` update `d[k] += v`. -/
def addScore (d : List (Str × ℚ)) (k : Str) (v : ℚ) : List (Str × ℚ) :=
  match alookup d k with
  | some x => aset d k (x + v)
  | none => d ++ [(k, v)]

/-- Python `{k: v for (k, v) in l}`: a dict built by repeated assignment
(first occurrence fixes the position, later occurrences update the value). -/
def dictOfPairs (l : List (Str × ℚ)) : List (Str × ℚ) :=
  l.foldl (fun d kv => aset d kv.1 kv.2) []

/-- One step of a stable insertion sort, descending by `key`: the new element
`x` (later in the original order) goes after every element whose key is
`≥ key x`, reproducing Python's stable `sorted(..., reverse=True)`. -/
def insDesc {α : Type} (key : α → ℚ) (x : α) : List α → List α
  | [] => [x]
  | y :: ys => if key x ≤ key y then y :: insDesc key x ys else x :: y :: ys

/-- Python `sorted(l, key=key, reverse=True)` (stable, descending). -/
def sortDescBy {α : Type} (key : α → ℚ) (l : List α) : List α :=
  l.foldl (fun acc x => insDesc key x acc) []

/-- One step of a stable insertion sort, ascending by a `Nat` key. -/
def insAsc {α : Type} (key : α → Nat) (x : α) : List α → List α
  | [] => [x]
  | y :: ys => if key y ≤ key x then y :: insAsc key x ys else x :: y :: ys

/-- Python `l.sort(key=key)` (stable, ascending). -/
def sortAscBy {α : Type} (key : α → Nat) (l : List α) : List α :=
  l.foldl (fun acc x => insAsc key x acc) []

/-- First index of `x` (Python `l.index(x)` / rank bookkeeping), as an option. -/
def idxOf? (x : Str) : List Str → Option Nat
  | [] => none
  | y :: t => if y = x then some 0 else (idxOf? x t).map (· + 1)

/-- Helper for termination of run-based scanners. -/
theorem length_dropWhile_le {α : Type} (p : α → Bool) (l : List α) :
    (l.dropWhile p).length ≤ l.length := by
  induction l with
  | nil => simp [List.dropWhile]
  | cons c rest ih =>
    by_cases h : p c
    · simp [List.dropWhile, h]; omega
    · simp [List.dropWhile, h]

/-! ## The hybrid retriever (`src/retrieval/hybrid_retriever.py`)

External dependencies are modelled as oracles:

* `bm25okapi` stands for `BM25Okapi(tokenized_docs).get_scores`
  (the `rank_bm25` library);
* `chromaQuery` stands for `self._collection.query(...)`, returning the
  raw `(id, distance)` pairs of the vector store.

Python `float` scores are modelled as `ℚ`. -/

namespace Retrieval

/-- ASCII lowercase letter (`[a-z]` in a non-IGNORECASE Python regex). -/
def isAsciiLower (c : Char) : Bool := 'a' ≤ c && c ≤ 'z'

/-- Python `text.lower()` (ASCII). -/
def pyLower (l : Str) : Str := l.map Char.toLower

/-- `re.sub(r"section\s+(\d+[a-z]*)", r"section_\1", text)` on already
lowercased text: scan left to right; at each position, if the literal
`section` is followed by at least one whitespace character and at least one
digit (then optional lowercase letters), replace the whole match by
`section_` followed by the digits and letters, and continue after the
match; otherwise keep the character and move on.  `fuel` bounds the scan
(instantiated with the text length). -/
def sectionSub (fuel : Nat) (l : Str) : Str :=
  match fuel, l with
  | 0, l => l
  | _, [] => []
  | fuel + 1, c :: rest =>
    if "section".data.isPrefixOf (c :: rest) then
      let r1 := (c :: rest).drop 7
      let ws := r1.takeWhile isPySpace
      let r2 := r1.drop ws.length
      let ds := r2.takeWhile Char.isDigit
      if ws ≠ [] ∧ ds ≠ [] then
        let ls := (r2.drop ds.length).takeWhile isAsciiLower
        "section_".data ++ ds ++ ls ++ sectionSub fuel ((r2.drop ds.length).drop ls.length)
      else
        c :: sectionSub fuel rest
    else
      c :: sectionSub fuel rest

/-- A `\w` character (`[A-Za-z0-9_]` for the ASCII texts at hand). -/
def isWordChar (c : Char) : Bool := c.isAlphanum || c = '_'

/-- `re.findall(r"\b\w+\b", text)`: the maximal runs of word characters
(fuel-structural; any `fuel ≥ length` suffices). -/
def wordRunsAux : Nat → Str → List Str
  | 0, _ => []
  | _, [] => []
  | fuel + 1, c :: rest =>
    if isWordChar c then
      (c :: rest.takeWhile isWordChar) :: wordRunsAux fuel (rest.dropWhile isWordChar)
    else
      wordRunsAux fuel rest

/-- `re.findall(r"\b\w+\b", text)`: the maximal runs of word characters. -/
def wordRuns (l : Str) : List Str := wordRunsAux l.length l

/-- `HybridRetriever._tokenize`: lowercase, fuse `section <num>` into one
token, then split into maximal word-character runs. -/
def tokenize (text : Str) : List Str :=
  if text = [] then []
  else
    let t := pyLower text
    wordRuns (sectionSub t.length t)

/-- `RAGConfig` (`src/config.py`): a plain dataclass of settings.  Note that
no field is validated anywhere. -/
structure RAGConfig where
  chunk_size : Nat := 1000
  chunk_overlap : Nat := 200
  top_k : Nat := 5
  semantic_weight : ℚ := 1/2
  keyword_weight : ℚ := 1/2
  rrf_k : Int := 60
  collection_name : String := "malaysian_legal_acts"
  embedding_model : String := "all-MiniLM-L6-v2"
  llm_model : String := "gemini-2.0-flash-lite"
  temperature : ℚ := 1/10

/-- One metadata record of the loaded corpus (a Python dict accessed with
`metadata.get(key, default)`, hence optional fields). -/
structure ChunkMeta where
  act_name : Option String := none
  act_number : Option Int := none
  section_number : Option String := none
  section_title : Option String := none

instance : Inhabited ChunkMeta := ⟨{}⟩

/-- `RetrievalResult` (dataclass). -/
structure RetrievalResult where
  chunk_id : Str
  content : Str
  act_name : String
  act_number : Int
  section_number : String
  section_title : String
  score : ℚ
  retrieval_method : String
deriving DecidableEq, Repr

/-- What `_initialize` reads out of the Chroma collection:
`all_docs["ids"]`, `all_docs["documents"]` (entries may be `None`) and
`all_docs["metadatas"]`. -/
structure CorpusData where
  ids : List Str
  documents : List (Option Str)
  metadatas : List ChunkMeta

/-- The state of a constructed `HybridRetriever`. -/
structure HybridRetriever where
  semantic_weight : ℚ
  keyword_weight : ℚ
  rrf_k : ℚ
  doc_ids : List Str
  documents : List Str
  doc_metadata : List ChunkMeta
  bm25 : Option (List Str → List ℚ)
  chromaQuery : String → Nat → List (Str × ℚ)

/-- `HybridRetriever.__init__` + `_initialize`, given the collection
contents and the two external capabilities.  The weights and `rrf_k` are
copied from the configuration verbatim; there is no validation of any
kind.  If the collection is empty the method returns early, leaving the
document lists empty and the BM25 index unbuilt. -/
def HybridRetriever.init (cfg : RAGConfig) (corpus : CorpusData)
    (bm25okapi : List (List Str) → List Str → List ℚ)
    (chromaQuery : String → Nat → List (Str × ℚ)) : HybridRetriever :=
  let base : HybridRetriever :=
    { semantic_weight := cfg.semantic_weight
      keyword_weight := cfg.keyword_weight
      rrf_k := (cfg.rrf_k : ℚ)
      doc_ids := []
      documents := []
      doc_metadata := []
      bm25 := none
      chromaQuery := chromaQuery }
  if corpus.ids = [] then base
  else
    let docs := corpus.documents.map (fun d => d.getD [])
    { base with
      doc_ids := corpus.ids
      documents := docs
      doc_metadata := corpus.metadatas
      bm25 := some (bm25okapi (docs.map tokenize)) }

/-- `HybridRetriever._semantic_search`: pass the query to the vector store
and convert each cosine distance to a similarity `1 - distance`.  (The
`except` branch that converts an oracle failure into `[]` is absorbed into
the totality of the oracle.) -/
def HybridRetriever.semanticSearch (R : HybridRetriever) (query : String)
    (nResults : Nat) : List (Str × ℚ) :=
  (R.chromaQuery query nResults).map (fun p => (p.1, 1 - p.2))

/-- `HybridRetriever._keyword_search`: score every corpus document, take the
indices of the `nResults` best scores (stable descending sort over
`range(len(scores))`), and keep only strictly positive scores. -/
def HybridRetriever.keywordSearch (R : HybridRetriever) (query : String)
    (nResults : Nat) : List (Str × ℚ) :=
  match R.bm25 with
  | none => []
  | some getScores =>
    let scores := getScores (tokenize query.data)
    let topIndices := (sortDescBy (fun i => scores.getD i 0) (List.range scores.length)).take nResults
    topIndices.filterMap (fun i =>
      if scores.getD i 0 > 0 then some (R.doc_ids.getD i [], scores.getD i 0) else none)

/-- The enumeration loops of `_reciprocal_rank_fusion`: walk a ranked list,
adding `w / (k + rank)` to each id's running score (`rank` starts at 1). -/
def addRanks (w k : ℚ) : List (Str × ℚ) → Nat → List (Str × ℚ) → List (Str × ℚ)
  | [], _, d => d
  | (doc_id, _) :: t, rank, d => addRanks w k t (rank + 1) (addScore d doc_id (w / (k + rank)))

/-- `HybridRetriever._reciprocal_rank_fusion`: semantic contributions first,
then keyword contributions, into one `defaultdict(float)`. -/
def reciprocalRankFusion (semantic_weight keyword_weight rrf_k : ℚ)
    (semantic_results keyword_results : List (Str × ℚ)) : List (Str × ℚ) :=
  addRanks keyword_weight rrf_k keyword_results 1
    (addRanks semantic_weight rrf_k semantic_results 1 [])

/-- The `combined_scores` dict of `HybridRetriever.retrieve`: run the
sub-searches the method requires (each asked for `2 × n` candidates) and
combine — fusion for `hybrid`, the native scores as a dict for
`semantic`, and the keyword dict in the residual `else` branch. -/
def HybridRetriever.combinedScores (R : HybridRetriever) (query : String)
    (nResults : Nat) (method : String) : List (Str × ℚ) :=
  let semantic_results :=
    if method = "hybrid" ∨ method = "semantic" then R.semanticSearch query (nResults * 2) else []
  let keyword_results :=
    if method = "hybrid" ∨ method = "keyword" then R.keywordSearch query (nResults * 2) else []
  if method = "hybrid" then
    reciprocalRankFusion R.semantic_weight R.keyword_weight R.rrf_k
      semantic_results keyword_results
  else if method = "semantic" then dictOfPairs semantic_results
  else dictOfPairs keyword_results

/-- The result-building loop body of `HybridRetriever.retrieve`: ids not
found in the loaded corpus snapshot are silently skipped; otherwise the id
is hydrated from the document/metadata record at its first index. -/
def HybridRetriever.hydrate (R : HybridRetriever) (method : String)
    (p : Str × ℚ) : Option RetrievalResult :=
  if R.doc_ids.contains p.1 then
    let idx := (idxOf? p.1 R.doc_ids).getD 0
    let metadata := R.doc_metadata.getD idx {}
    some
      { chunk_id := p.1
        content := R.documents.getD idx []
        act_name := metadata.act_name.getD ""
        act_number := metadata.act_number.getD 0
        section_number := metadata.section_number.getD ""
        section_title := metadata.section_title.getD ""
        score := p.2
        retrieval_method := method }
  else none

/-- `HybridRetriever.retrieve`.  The combined dict always has distinct
keys, so the stable descending sort of its `(id, score)` pairs by score is
exactly Python's `sorted(combined_scores.keys(), key=lambda x:
combined_scores[x], reverse=True)`, and the pair's second component is
exactly the `combined_scores[doc_id]` used for the result's score. -/
def HybridRetriever.retrieve (R : HybridRetriever) (query : String)
    (nResults : Nat) (method : String) : List RetrievalResult :=
  ((sortDescBy (fun p => p.2) (R.combinedScores query nResults method)).take nResults).filterMap
    (R.hydrate method)

end Retrieval

/-! ## The document segmenter (`src/ingestion/chunker.py`)

The three regular expressions of the source are modelled by dedicated
matchers specialised to their concrete patterns, together with a generic
left-to-right non-overlapping scanner reproducing `re.finditer` with
`re.MULTILINE` (`^` anchors at offset 0 and after every newline).  Since
every quantifier in these patterns ranges over a character class that is
disjoint from what must follow it, the greedy maximal-munch reading used
here coincides with Python's backtracking semantics.  The token counter
`count_tokens` (tiktoken) is an oracle parameter `tok`; the source's
failure handling degrades a tokenizer error to `0`, which is subsumed by
an arbitrary total oracle. -/

namespace Chunker

/-- Case-insensitive literal prefix test (`pat` given lowercase). -/
def ciPref (pat : Str) (l : Str) : Bool :=
  (l.take pat.length).map Char.toLower == pat

/-- The common `\s*(.*)$` tail of `SECTION_PATTERN` and `PART_PATTERN`: a
maximal whitespace run (which may cross newlines), then the rest of that
line (`.` does not match `\n`; the `$` of `re.MULTILINE` then holds).
Returns the `(.*)` group and the number of characters consumed. -/
def tailRest (r : Str) : Str × Nat :=
  let ws := r.takeWhile isPySpace
  let afterWs := r.drop ws.length
  let title := afterWs.takeWhile (fun c => c != '\n')
  (title, ws.length + title.length)

/-- One section-header match. -/
structure SecMatchData where
  num : Str
  title : Str
  len : Nat
deriving Repr, DecidableEq

/-- The first alternative of `SECTION_PATTERN`:
`(?:Section|Seksyen)\s+(\d+[A-Za-z]*)` followed by the common
`\s*(.*)$` tail. -/
def matchSectionA (rest : Str) : Option SecMatchData :=
  if ciPref "section".data rest || ciPref "seksyen".data rest then
    let r1 := rest.drop 7
    let ws := r1.takeWhile isPySpace
    let r2 := r1.drop ws.length
    let ds := r2.takeWhile Char.isDigit
    if ws.length > 0 && ds.length > 0 then
      let ls := (r2.drop ds.length).takeWhile Char.isAlpha
      let consumed := 7 + ws.length + ds.length + ls.length
      let t := tailRest (rest.drop consumed)
      some { num := ds ++ ls, title := t.1, len := consumed + t.2 }
    else none
  else none

/-- The second alternative of `SECTION_PATTERN`: `(\d+[A-Za-z]*)\.`
followed by the common `\s*(.*)$` tail. -/
def matchSectionB (rest : Str) : Option SecMatchData :=
  let ds := rest.takeWhile Char.isDigit
  if ds.length > 0 then
    let ls := (rest.drop ds.length).takeWhile Char.isAlpha
    match rest.drop (ds.length + ls.length) with
    | '.' :: _ =>
      let consumed := ds.length + ls.length + 1
      let t := tailRest (rest.drop consumed)
      some { num := ds ++ ls, title := t.1, len := consumed + t.2 }
    | _ => none
  else none

/-- `SECTION_PATTERN` at one position (the caller checks the `^` anchor):
`(?:(?:Section|Seksyen)\s+(\d+[A-Za-z]*)|(\d+[A-Za-z]*)\.)\s*(.*)$` with
`re.IGNORECASE`.  The first alternative is tried first, as in Python. -/
def matchSectionAt (rest : Str) : Option SecMatchData :=
  match matchSectionA rest with
  | some m => some m
  | none => matchSectionB rest

/-- A `re.finditer` match occurrence: payload, start offset, end offset. -/
structure Span (α : Type) where
  val : α
  start : Nat
  stop : Nat
deriving Repr, DecidableEq

/-- `re.finditer`: scan positions left to right, emit the match attempted
at each position if it succeeds, and continue after its end
(non-overlapping).  `matchAt` receives the whole text and the position so
it can check the `^` anchor.  Fuel-structural; `finditer` passes
`length + 1`, enough because every successful match here consumes at
least one character. -/
def finditerAux {α : Type} (matchAt : Str → Nat → Option (α × Nat)) (cs : Str) :
    Nat → Nat → List (Span α)
  | _, 0 => []
  | p, fuel + 1 =>
    if p < cs.length then
      match matchAt cs p with
      | some al => { val := al.1, start := p, stop := p + al.2 } :: finditerAux matchAt cs (p + al.2) fuel
      | none => finditerAux matchAt cs (p + 1) fuel
    else []

/-- `re.finditer(pattern, cs)` for a pattern modelled by `matchAt`. -/
def finditer {α : Type} (matchAt : Str → Nat → Option (α × Nat)) (cs : Str) : List (Span α) :=
  finditerAux matchAt cs 0 (cs.length + 1)

/-- The `^` anchor of `re.MULTILINE`: offset 0 or right after a newline. -/
def isLineStart (cs : Str) (p : Nat) : Bool :=
  p = 0 || cs.getD (p - 1) ' ' == '\n'

/-- `SECTION_PATTERN` as a positional matcher (anchored at line starts). -/
def sectionMatchAt (cs : Str) (p : Nat) : Option (SecMatchData × Nat) :=
  if isLineStart cs p then (matchSectionAt (cs.drop p)).map (fun m => (m, m.len)) else none

/-- One entry of the list built by `find_sections` (after end assignment):
`section_number`, `title` (stripped), `start`, `end`. -/
structure SectionInfo where
  section_number : Str
  title : Str
  start : Nat
  stop : Nat
deriving Repr, DecidableEq

/-- The end-assignment loop of `find_sections`: each section ends where the
next begins; the last ends at `len(text)`. -/
def assignEnds (textLen : Nat) : List (SecMatchData × Nat) → List SectionInfo
  | [] => []
  | [(m, s)] => [{ section_number := m.num, title := pyStrip m.title, start := s, stop := textLen }]
  | (m, s) :: (m2, s2) :: t =>
    { section_number := m.num, title := pyStrip m.title, start := s, stop := s2 } ::
      assignEnds textLen ((m2, s2) :: t)

/-- `find_sections`: collect every `SECTION_PATTERN` match with its offset,
sort by start offset (stably), then assign end offsets.  (The source's
`if not sec_num: continue` is dead: both capture groups require at least
one digit.) -/
def findSections (cs : Str) : List SectionInfo :=
  assignEnds cs.length
    (sortAscBy (fun e => e.2) ((finditer sectionMatchAt cs).map (fun sp => (sp.val, sp.start))))

/-- `[IVXLCDM]` under `re.IGNORECASE`. -/
def isRomanChar (c : Char) : Bool :=
  c.toLower = 'i' || c.toLower = 'v' || c.toLower = 'x' || c.toLower = 'l' ||
  c.toLower = 'c' || c.toLower = 'd' || c.toLower = 'm'

/-- The `[\s\-–—]` class of `PART_PATTERN`. -/
def isPartSep (c : Char) : Bool :=
  isPySpace c || c = '-' || c = '–' || c = '—'

/-- One part-header match. -/
structure PartMatchData where
  num : Str
  title : Str
  len : Nat
deriving Repr, DecidableEq

/-- `PART_PATTERN` at one position:
`(?:PART|BAHAGIAN)\s+([IVXLCDM]+|\d+)\b[\s\-–—]*(.*)$` with
`re.IGNORECASE`.  The `\b` after the group requires the next character
(if any) not to be a word character; if the roman-numeral run is nonempty
the digit alternative cannot apply (its first character is not a digit). -/
def matchPartAt (rest : Str) : Option PartMatchData :=
  let kwLen : Option Nat :=
    if ciPref "part".data rest then some 4
    else if ciPref "bahagian".data rest then some 8
    else none
  match kwLen with
  | none => none
  | some kl =>
    let r1 := rest.drop kl
    let ws := r1.takeWhile isPySpace
    if ws.length = 0 then none
    else
      let r2 := r1.drop ws.length
      let roman := r2.takeWhile isRomanChar
      let grp : Option Str :=
        if roman.length > 0 then
          if (r2.drop roman.length).head?.elim true (fun c => !Retrieval.isWordChar c) then
            some roman
          else none
        else
          let ds := r2.takeWhile Char.isDigit
          if ds.length > 0 then
            if (r2.drop ds.length).head?.elim true (fun c => !Retrieval.isWordChar c) then
              some ds
            else none
          else none
      match grp with
      | none => none
      | some g =>
        let r3 := r2.drop g.length
        let seps := r3.takeWhile isPartSep
        let afterSeps := r3.drop seps.length
        let title := afterSeps.takeWhile (fun c => c != '\n')
        some { num := g, title := title,
               len := kl + ws.length + g.length + seps.length + title.length }

/-- `PART_PATTERN` as a positional matcher (anchored at line starts). -/
def partMatchAt (cs : Str) (p : Nat) : Option (PartMatchData × Nat) :=
  if isLineStart cs p then (matchPartAt (cs.drop p)).map (fun m => (m, m.len)) else none

/-- The scan of `find_current_part`: keep the last part header starting at
or before `position` (the loop breaks at the first later one). -/
def currentPartLoop (position : Nat) : List (Span PartMatchData) → Option Str → Option Str
  | [], acc => acc
  | sp :: t, acc =>
    if sp.start ≤ position then
      let strippedTitle := pyStrip sp.val.title
      let cur := "Part ".data ++ sp.val.num ++
        (if strippedTitle ≠ [] then " - ".data ++ strippedTitle else [])
      currentPartLoop position t (some cur)
    else acc

/-- `find_current_part`. -/
def findCurrentPart (cs : Str) (position : Nat) : Option Str :=
  currentPartLoop position (finditer partMatchAt cs) none

/-- `SUBSECTION_PATTERN` at one position: `^\s*\((\d+[a-z]?)\)\s*` with
`re.MULTILINE` (no IGNORECASE, so the optional letter is lowercase only).
Only the consumed length matters to `split_large_section`. -/
def matchSubsecAt (rest : Str) : Option Nat :=
  let ws := rest.takeWhile isPySpace
  match rest.drop ws.length with
  | '(' :: r2 =>
    let ds := r2.takeWhile Char.isDigit
    if ds.length = 0 then none
    else
      match r2.drop ds.length with
      | ')' :: r4 =>
        some (ws.length + 1 + ds.length + 1 + (r4.takeWhile isPySpace).length)
      | c :: ')' :: r4 =>
        if Retrieval.isAsciiLower c then
          some (ws.length + 1 + ds.length + 2 + (r4.takeWhile isPySpace).length)
        else none
      | _ => none
  | _ => none

/-- `SUBSECTION_PATTERN` as a positional matcher (anchored at line starts). -/
def subsecMatchAt (cs : Str) (p : Nat) : Option (Unit × Nat) :=
  if isLineStart cs p then (matchSubsecAt (cs.drop p)).map (fun len => ((), len)) else none

/-- `list(SUBSECTION_PATTERN.finditer(section_text))`. -/
def subsecSpans (cs : Str) : List (Span Unit) := finditer subsecMatchAt cs

/-- Python slice `cs[a:b]`. -/
def slice (cs : Str) (a b : Nat) : Str := (cs.drop a).take (b - a)

/-- The subsection texts of `split_large_section`: consecutive slices from
each match start to the next match start, the last running to the end. -/
def slicesFrom (cs : Str) : List Nat → List Str
  | [] => []
  | [a] => [cs.drop a]
  | a :: b :: t => slice cs a b :: slicesFrom cs (b :: t)

/-- The paragraph accumulate-and-flush loop of `split_large_section`
(`current_chunk` starts empty; `test_chunk` joins with a blank line; a
flush requires the running text to be nonempty). -/
def paraLoop (tok : Str → Nat) (maxTokens : Nat) :
    List Str → List Str → Str → List Str × Str
  | [], chunks, current => (chunks, current)
  | para :: rest, chunks, current =>
    let test := if current ≠ [] then current ++ nlnl ++ para else para
    if tok test > maxTokens ∧ current ≠ [] then
      paraLoop tok maxTokens rest (chunks ++ [pyStrip current]) para
    else
      paraLoop tok maxTokens rest chunks test

/-- The subsection accumulate-and-flush loop of `split_large_section`
(`test_chunk` is plain concatenation; a flush requires the running text to
be nonempty after stripping). -/
def subLoop (tok : Str → Nat) (maxTokens : Nat) :
    List Str → List Str → Str → List Str × Str
  | [], chunks, current => (chunks, current)
  | u :: rest, chunks, current =>
    let test := current ++ u
    if tok test > maxTokens ∧ pyStrip current ≠ [] then
      subLoop tok maxTokens rest (chunks ++ [pyStrip current]) u
    else
      subLoop tok maxTokens rest chunks test

/-- `split_large_section`. -/
def splitLargeSection (tok : Str → Nat) (sectionText : Str) (maxTokens : Nat) : List Str :=
  if tok sectionText ≤ maxTokens then [sectionText]
  else
    match subsecSpans sectionText with
    | [] =>
      let paragraphs := splitParas sectionText
      let r := paraLoop tok maxTokens paragraphs [] []
      let chunks := if pyStrip r.2 ≠ [] then r.1 ++ [pyStrip r.2] else r.1
      if chunks = [] then [sectionText] else chunks
    | sp :: rest =>
      let units := slicesFrom sectionText ((sp :: rest).map (fun s => s.start))
      let r := subLoop tok maxTokens units [] (sectionText.take sp.start)
      let chunks := if pyStrip r.2 ≠ [] then r.1 ++ [pyStrip r.2] else r.1
      if chunks = [] then [sectionText] else chunks

/-- `LegalChunk` (dataclass). -/
structure LegalChunk where
  chunk_id : Str
  act_name : String
  act_number : Int
  part : Option Str
  section_number : Option Str
  section_title : Option Str
  content : Str
  token_count : Nat
  start_position : Nat
deriving Repr, DecidableEq

/-- The processed-document input of `chunk_document` (a dict accessed with
`.get(key, default)`, hence optional fields). -/
structure Document where
  cleaned_text : Option Str := none
  act_name : Option String := none
  act_number : Option Int := none

/-- The in-place merge of a too-small chunk into the previous chunk
(`chunks[-1] = LegalChunk(...)` in `chunk_document`): content is appended
with a blank-line separator and the token count recomputed; every other
field is copied from the predecessor. -/
def mergeSmall (tok : Str → Nat) (prev : LegalChunk) (chunk_text : Str) : LegalChunk :=
  { chunk_id := prev.chunk_id
    act_name := prev.act_name
    act_number := prev.act_number
    part := prev.part
    section_number := prev.section_number
    section_title := prev.section_title
    content := prev.content ++ nlnl ++ chunk_text
    token_count := tok (prev.content ++ nlnl ++ chunk_text)
    start_position := prev.start_position }

/-- Replace the last element of a list (`chunks[-1] = ...`). -/
def updateLast {α : Type} (f : α → α) : List α → List α
  | [] => []
  | [x] => [f x]
  | x :: y :: t => x :: updateLast f (y :: t)

/-- The inner loop of `chunk_document` over `enumerate(section_chunks)`:
merge a too-small chunk into the previous one, otherwise build the chunk
id (base id, sub-chunk index when the section was split, deduplication
suffix on collision, tracked in `seen_ids`) and append the chunk. -/
def emitChunks (tok : Str → Nat) (minTokens : Nat) (act_number : Int)
    (act_name : String) (sec : SectionInfo) (part : Option Str) (nSub : Nat) :
    List Str → Nat → List LegalChunk → List (Str × Nat) →
    List LegalChunk × List (Str × Nat)
  | [], _, chunks, seen => (chunks, seen)
  | ct :: rest, i, chunks, seen =>
    if tok ct < minTokens ∧ chunks ≠ [] then
      emitChunks tok minTokens act_number act_name sec part nSub rest (i + 1)
        (updateLast (fun prev => mergeSmall tok prev ct) chunks) seen
    else
      let base_id := "act_".data ++ intStr act_number ++ "_s".data ++ sec.section_number ++
        (if nSub > 1 then '_' :: natStr (i + 1) else [])
      let idSeen :=
        match alookup seen base_id with
        | some c => (base_id ++ "_dup".data ++ natStr (c + 1), aset seen base_id (c + 1))
        | none => (base_id, seen ++ [(base_id, 0)])
      let chunk : LegalChunk :=
        { chunk_id := idSeen.1
          act_name := act_name
          act_number := act_number
          part := part
          section_number := some sec.section_number
          section_title := some sec.title
          content := ct
          token_count := tok ct
          start_position := sec.start }
      emitChunks tok minTokens act_number act_name sec part nSub rest (i + 1)
        (chunks ++ [chunk]) idSeen.2

/-- The outer loop of `chunk_document` over the detected sections. -/
def sectionsLoop (tok : Str → Nat) (maxTokens minTokens : Nat) (act_number : Int)
    (act_name : String) (text : Str) :
    List SectionInfo → List LegalChunk → List (Str × Nat) → List LegalChunk
  | [], chunks, _ => chunks
  | sec :: rest, chunks, seen =>
    let section_text := pyStrip (slice text sec.start sec.stop)
    let current_part := findCurrentPart text sec.start
    let section_chunks := splitLargeSection tok section_text maxTokens
    let r := emitChunks tok minTokens act_number act_name sec current_part
      section_chunks.length section_chunks 0 chunks seen
    sectionsLoop tok maxTokens minTokens act_number act_name text rest r.1 r.2

/-- `chunk_document`. -/
def chunkDocument (tok : Str → Nat) (document : Document)
    (maxTokens minTokens : Nat) : List LegalChunk :=
  let text := (document.cleaned_text).getD []
  let act_name := (document.act_name).getD "Unknown Act"
  let act_number := (document.act_number).getD 0
  match findSections text with
  | [] =>
    [{ chunk_id := "act_".data ++ intStr act_number ++ "_full".data
       act_name := act_name
       act_number := act_number
       part := none
       section_number := none
       section_title := none
       content := text
       token_count := tok text
       start_position := 0 }]
  | sec0 :: sections =>
    let preChunks : List LegalChunk :=
      if sec0.start > 0 then
        let preamble := pyStrip (text.take sec0.start)
        if preamble ≠ [] ∧ tok preamble ≥ minTokens then
          [{ chunk_id := "act_".data ++ intStr act_number ++ "_preamble".data
             act_name := act_name
             act_number := act_number
             part := findCurrentPart text 0
             section_number := some "Preamble".data
             section_title := some "Preliminary Provisions".data
             content := preamble
             token_count := tok preamble
             start_position := 0 }]
        else []
      else []
    sectionsLoop tok maxTokens minTokens act_number act_name text
      (sec0 :: sections) preChunks []

end Chunker

/-! ## Fixtures and statement-level predicates -/

/-- A concrete token-counting oracle (character count) for fixtures. -/
def tokLen : Str → Nat := List.length

/-- The consecutive source ranges of a chunk sequence: each chunk's range
runs from its `start_position` to the next chunk's `start_position`, the
last to the end of the source text. -/
def chunkRanges (textLen : Nat) : List Chunker.LegalChunk → List (Nat × Nat)
  | [] => []
  | [c] => [(c.start_position, textLen)]
  | c :: c2 :: t => (c.start_position, c2.start_position) :: chunkRanges textLen (c2 :: t)

/-- The range property asserted by the specification: ranges pairwise
non-overlapping and sorted ascending (each ends no later than the next
begins), and jointly covering the full length of the source text. -/
def rangesDisjointSortedCover (textLen : Nat) (rs : List (Nat × Nat)) : Prop :=
  List.Chain' (fun a b => a.2 ≤ b.1) rs ∧
  ∀ p, p < textLen → ∃ r ∈ rs, r.1 ≤ p ∧ p < r.2

/-- The indivisible segments `split_large_section` works with: the
paragraphs when no subsection marker matches, otherwise the text before
the first marker followed by the marker-to-marker subsection units. -/
def segments (text : Str) : List Str :=
  match Chunker.subsecSpans text with
  | [] => splitParas text
  | sp :: rest => text.take sp.start :: Chunker.slicesFrom text ((sp :: rest).map (fun s => s.start))

/-- A strictly descending score sequence (the spec's "strictly sorted by
descending combined score"). -/
def strictlyDescending (l : List ℚ) : Prop := List.Chain' (fun a b => b < a) l

/-- Fixture: a ranked semantic list. -/
def semEx : List (Str × ℚ) := [("x".data, 9), ("y".data, 8)]

/-- Fixture: a ranked keyword list. -/
def kwEx : List (Str × ℚ) := [("y".data, 5), ("z".data, 4)]

/-- Fixture: a retriever whose two corpus documents tie under BM25. -/
def Rex : Retrieval.HybridRetriever :=
  { semantic_weight := 1/2
    keyword_weight := 1/2
    rrf_k := 60
    doc_ids := ["a".data, "b".data]
    documents := ["doc a".data, "doc b".data]
    doc_metadata := [{}, {}]
    bm25 := some (fun _ => [1, 1])
    chromaQuery := fun _ _ => [] }

/-- Fixture: the first result of `Rex.retrieve "q" 5 "keyword"`. -/
def rEx8 : Retrieval.RetrievalResult :=
  { chunk_id := "a".data
    content := "doc a".data
    act_name := ""
    act_number := 0
    section_number := ""
    section_title := ""
    score := 1
    retrieval_method := "keyword" }

/-- Fixture: a configuration with invalid (negative) weights and `k`. -/
def cfgBad : Retrieval.RAGConfig :=
  { semantic_weight := -1
    keyword_weight := -2
    rrf_k := -60 }

/-- Fixture: a one-document corpus snapshot. -/
def corpusEx : Retrieval.CorpusData :=
  { ids := ["a".data]
    documents := [some "doc".data]
    metadatas := [{}] }

/-- Fixture: a document whose cleaned text is empty. -/
def docEmptyFx : Chunker.Document := { cleaned_text := some [] }

/-- Fixture: an oversized section that starts directly with a subsection
marker (`(1)` at offset 0). -/
def secTextC5 : Str := "(1) abcdef".data

/-- Build a `chunk_document` input from its three used fields. -/
def mkDoc (text : Str) (an : Option String) (num : Option Int) : Chunker.Document :=
  { cleaned_text := some text, act_name := an, act_number := num }

/-- A well-formed section number as produced by `SECTION_PATTERN`:
nonempty, consisting only of letters and digits. -/
def secOK (sec : Str) : Prop := sec ≠ [] ∧ ∀ c ∈ sec, c.isAlphanum = true

/-- The optional 1-based sub-chunk index suffix of a base id. -/
def idxSuf : Option Nat → Str
  | none => []
  | some i => '_' :: natStr i

/-- The base id `act_<n>_s<sec>` with optional sub-chunk index, written
with the shared prefix `act_<n>_` factored out. -/
def baseId (n : Int) (sec : Str) (idx : Option Nat) : Str :=
  ("act_".data ++ intStr n ++ ['_']) ++ ('s' :: (sec ++ idxSuf idx))

/-- The deduplication suffix `_dup<j>`. -/
def dupSuf (j : Nat) : Str := "_dup".data ++ natStr j

/-- The preamble chunk id `act_<n>_preamble`. -/
def preId (n : Int) : Str := ("act_".data ++ intStr n ++ ['_']) ++ "preamble".data

/-- A string that is a base chunk id for act number `n` and some
well-formed section number. -/
def IdShape (n : Int) (b : Str) : Prop :=
  ∃ sec idx, secOK sec ∧ b = baseId n sec idx

/-- The `seen_ids` dictionary of `chunk_document` is well-formed: keys are
distinct and every key is a base chunk id. -/
def SeenOK (n : Int) (seen : List (Str × Nat)) : Prop :=
  (seen.map Prod.fst).Nodup ∧ ∀ p ∈ seen, IdShape n p.1

/-- Every id emitted so far is the preamble id, a base id recorded in
`seen_ids`, or a recorded base id with a deduplication suffix no larger
than its recorded collision counter. -/
def EmittedId (n : Int) (seen : List (Str × Nat)) (id : Str) : Prop :=
  id = preId n ∨ ∃ p ∈ seen, id = p.1 ∨ ∃ j, 1 ≤ j ∧ j ≤ p.2 ∧ id = p.1 ++ dupSuf j

/-- The loop invariant of `chunk_document`'s emission loops: emitted ids
are distinct, `seen_ids` is well-formed, and every emitted id is accounted
for by `seen_ids` (or is the preamble id). -/
def ChunkInv (n : Int) (chunks : List Chunker.LegalChunk) (seen : List (Str × Nat)) : Prop :=
  (chunks.map (fun c => c.chunk_id)).Nodup ∧ SeenOK n seen ∧
    ∀ id ∈ chunks.map (fun c => c.chunk_id), EmittedId n seen id

/-- Fixture: a document with a short preamble (`xx`) before its only
section header. -/
def docC7 : Chunker.Document :=
  { cleaned_text := some "xx\nSection 1 T\nbody".data
    act_name := some "T"
    act_number := some 1 }

/-! ## Helper lemmas: association lists and stable sorts -/

theorem alookup_aset_self {α : Type} (d : List (Str × α)) (k : Str) (v : α) :
    alookup (aset d k v) k = some v := by
  induction d with
  | nil => simp [aset, alookup]
  | cons kv rest ih =>
    obtain ⟨k', v'⟩ := kv
    by_cases h : k' = k
    · simp [aset, h, alookup]
    · simp [aset, h, alookup, ih]

theorem alookup_aset_other {α : Type} (d : List (Str × α)) (k : Str) (v : α)
    (k' : Str) (h : k' ≠ k) : alookup (aset d k v) k' = alookup d k' := by
  induction d with
  | nil => simp [aset, alookup, Ne.symm h]
  | cons kv rest ih =>
    obtain ⟨k0, v0⟩ := kv
    by_cases h0 : k0 = k
    · subst h0
      simp [aset, alookup, Ne.symm h]
    · simp only [aset, if_neg h0, alookup]
      by_cases h1 : k0 = k'
      · simp [h1]
      · simp [h1, ih]

theorem alookup_append {α : Type} (d e : List (Str × α)) (k : Str) :
    alookup (d ++ e) k = ((alookup d k).map some).getD (alookup e k) := by
  induction d with
  | nil => simp [alookup]
  | cons kv rest ih =>
    obtain ⟨k0, v0⟩ := kv
    by_cases h0 : k0 = k
    · simp [alookup, h0]
    · simp [alookup, h0, ih]

theorem alookup_eq_none {α : Type} (d : List (Str × α)) (k : Str) :
    alookup d k = none ↔ ∀ kv ∈ d, kv.1 ≠ k := by
  induction d with
  | nil => simp [alookup]
  | cons kv rest ih =>
    obtain ⟨k', v'⟩ := kv
    by_cases h : k' = k
    · simp [alookup, h]
    · simp [alookup, h, ih]

theorem alookup_append_of_none {α : Type} (d e : List (Str × α)) (k : Str)
    (h : alookup d k = none) : alookup (d ++ e) k = alookup e k := by
  induction d with
  | nil => simp
  | cons kv rest ih =>
    obtain ⟨k', v'⟩ := kv
    by_cases h0 : k' = k
    · simp [alookup, h0] at h
    · simp only [alookup, if_neg h0] at h
      simpa [alookup, h0] using ih h

theorem alookup_addScore_self (d : List (Str × ℚ)) (k : Str) (v : ℚ) :
    alookup (addScore d k v) k = some ((alookup d k).getD 0 + v) := by
  unfold addScore
  cases h : alookup d k with
  | some x => simp [alookup_aset_self, h]
  | none => simp [alookup_append_of_none d _ k h, alookup, h]

theorem alookup_addScore_other (d : List (Str × ℚ)) (k : Str) (v : ℚ)
    (k' : Str) (h : k' ≠ k) : alookup (addScore d k v) k' = alookup d k' := by
  unfold addScore
  cases h0 : alookup d k with
  | some x => simp [alookup_aset_other _ _ _ _ h]
  | none =>
    rw [alookup_append]
    cases h1 : alookup d k' with
    | some y => simp
    | none => simp [alookup, Ne.symm h]

theorem mem_aset {α : Type} (d : List (Str × α)) (k : Str) (v : α)
    (kv : Str × α) (h : kv ∈ aset d k v) : kv = (k, v) ∨ kv ∈ d := by
  induction d with
  | nil => simpa [aset] using h
  | cons kv0 rest ih =>
    obtain ⟨k0, v0⟩ := kv0
    by_cases h0 : k0 = k
    · simp only [aset, if_pos h0] at h
      rcases List.mem_cons.mp h with h1 | h1
      · exact Or.inl h1
      · exact Or.inr (List.mem_cons_of_mem _ h1)
    · simp only [aset, if_neg h0] at h
      rcases List.mem_cons.mp h with h1 | h1
      · subst h1; exact Or.inr (List.mem_cons_self _ _)
      · rcases ih h1 with h2 | h2
        · exact Or.inl h2
        · exact Or.inr (List.mem_cons_of_mem _ h2)

theorem mem_dictOfPairs (l : List (Str × ℚ)) (kv : Str × ℚ)
    (h : kv ∈ dictOfPairs l) : kv ∈ l := by
  have main : ∀ (l : List (Str × ℚ)) (acc : List (Str × ℚ)) (kv : Str × ℚ),
      kv ∈ l.foldl (fun d p => aset d p.1 p.2) acc → kv ∈ acc ∨ kv ∈ l := by
    intro l
    induction l with
    | nil => intro acc kv h; exact Or.inl h
    | cons p rest ih =>
      intro acc kv h
      rcases ih _ _ h with h1 | h1
      · rcases mem_aset _ _ _ _ h1 with h2 | h2
        · exact Or.inr (h2 ▸ List.mem_cons_self _ _)
        · exact Or.inl h2
      · exact Or.inr (List.mem_cons_of_mem _ h1)
  rcases main l [] kv h with h1 | h1
  · simp at h1
  · exact h1

theorem mem_insDesc {α : Type} (key : α → ℚ) (x : α) (l : List α) (z : α) :
    z ∈ insDesc key x l ↔ z = x ∨ z ∈ l := by
  induction l with
  | nil => simp [insDesc]
  | cons y ys ih =>
    by_cases h : key x ≤ key y
    · simp only [insDesc, if_pos h, List.mem_cons, ih]
      tauto
    · simp [insDesc, if_neg h]

theorem insDesc_pairwise {α : Type} (key : α → ℚ) (x : α) (l : List α)
    (h : l.Pairwise (fun a b => key b ≤ key a)) :
    (insDesc key x l).Pairwise (fun a b => key b ≤ key a) := by
  induction l with
  | nil => simp [insDesc]
  | cons y ys ih =>
    rw [List.pairwise_cons] at h
    obtain ⟨hy, hys⟩ := h
    by_cases hxy : key x ≤ key y
    · simp only [insDesc, if_pos hxy]
      rw [List.pairwise_cons]
      refine ⟨?_, ih hys⟩
      intro z hz
      rcases (mem_insDesc key x ys z).mp hz with rfl | hz'
      · exact hxy
      · exact hy z hz'
    · simp only [insDesc, if_neg hxy]
      rw [List.pairwise_cons]
      refine ⟨?_, List.pairwise_cons.mpr ⟨hy, hys⟩⟩
      intro z hz
      rcases List.mem_cons.mp hz with rfl | hz'
      · exact le_of_not_le hxy
      · exact le_trans (hy z hz') (le_of_not_le hxy)

theorem sortDescBy_pairwise {α : Type} (key : α → ℚ) (l : List α) :
    (sortDescBy key l).Pairwise (fun a b => key b ≤ key a) := by
  have main : ∀ (l acc : List α), acc.Pairwise (fun a b => key b ≤ key a) →
      (l.foldl (fun acc x => insDesc key x acc) acc).Pairwise (fun a b => key b ≤ key a) := by
    intro l
    induction l with
    | nil => intro acc h; exact h
    | cons x rest ih => intro acc h; exact ih _ (insDesc_pairwise key x acc h)
  exact main l [] (by simp)

theorem mem_sortDescBy {α : Type} (key : α → ℚ) (l : List α) (z : α)
    (h : z ∈ sortDescBy key l) : z ∈ l := by
  have main : ∀ (l acc : List α) (z : α),
      z ∈ l.foldl (fun acc x => insDesc key x acc) acc → z ∈ acc ∨ z ∈ l := by
    intro l
    induction l with
    | nil => intro acc z h; exact Or.inl h
    | cons x rest ih =>
      intro acc z h
      rcases ih _ _ h with h1 | h1
      · rcases (mem_insDesc key x acc z).mp h1 with rfl | h2
        · exact Or.inr (List.mem_cons_self _ _)
        · exact Or.inl h2
      · exact Or.inr (List.mem_cons_of_mem _ h1)
  rcases main l [] z h with h1 | h1
  · simp at h1
  · exact h1

/-! ## Helper lemmas: reciprocal rank fusion -/

theorem idxOf?_eq_none (x : Str) (l : List Str) : idxOf? x l = none ↔ x ∉ l := by
  induction l with
  | nil => simp [idxOf?]
  | cons y t ih =>
    by_cases h : y = x
    · subst h; simp [idxOf?]
    · simp [idxOf?, h, ih, Ne.symm h]

theorem addRanks_lookup_of_not_mem (w k : ℚ) (l : List (Str × ℚ)) (r : Nat)
    (d : List (Str × ℚ)) (X : Str) (h : X ∉ l.map Prod.fst) :
    alookup (Retrieval.addRanks w k l r d) X = alookup d X := by
  induction l generalizing r d with
  | nil => simp [Retrieval.addRanks]
  | cons p t ih =>
    obtain ⟨y, s⟩ := p
    simp only [List.map_cons, List.mem_cons, not_or] at h
    obtain ⟨hy, ht⟩ := h
    simp only [Retrieval.addRanks]
    rw [ih _ _ ht, alookup_addScore_other _ _ _ _ hy]

theorem addRanks_lookup_of_mem (w k : ℚ) (l : List (Str × ℚ)) (r : Nat)
    (d : List (Str × ℚ)) (X : Str) (i : Nat)
    (hnd : (l.map Prod.fst).Nodup) (hi : idxOf? X (l.map Prod.fst) = some i) :
    alookup (Retrieval.addRanks w k l r d) X =
      some ((alookup d X).getD 0 + w / (k + ((r : ℚ) + (i : ℚ)))) := by
  induction l generalizing r d i with
  | nil => simp [idxOf?] at hi
  | cons p t ih =>
    obtain ⟨y, s⟩ := p
    simp only [List.map_cons, List.nodup_cons] at hnd
    obtain ⟨hy, hnd'⟩ := hnd
    by_cases h : y = X
    · subst h
      simp [idxOf?] at hi
      subst hi
      simp only [Retrieval.addRanks]
      rw [addRanks_lookup_of_not_mem _ _ _ _ _ _ hy,
        alookup_addScore_self]
      norm_num
    · simp only [List.map_cons, idxOf?, if_neg h] at hi
      cases hj : idxOf? X (t.map Prod.fst) with
      | none => rw [hj] at hi; simp at hi
      | some j =>
        rw [hj] at hi
        simp only [Option.map_some', Option.some.injEq] at hi
        subst hi
        simp only [Retrieval.addRanks]
        rw [ih (r + 1) _ j hnd' hj,
          alookup_addScore_other _ _ _ _ (fun hh => h hh.symm)]
        congr 2
        push_cast
        ring

/-- **C1.**  For every pair of ranked input lists (each listing an id at
most once), every `semantic_weight`, `keyword_weight` and `k`, and every
chunk id `X`: the fusion output of `_reciprocal_rank_fusion` maps `X` to
`semantic_weight/(k+r1) + keyword_weight/(k+r2)` when `X` appears at
1-based rank `r1 = i+1` in the semantic list and at rank `r2 = j+1` in the
keyword list; to just the one list's term when it appears in only one
list; and to nothing when it is absent from both. -/
theorem rrf_combined_score_formula (sem kw : List (Str × ℚ)) (sw kww k : ℚ) (X : Str)
    (hs : (sem.map Prod.fst).Nodup) (hk : (kw.map Prod.fst).Nodup) :
    alookup (Retrieval.reciprocalRankFusion sw kww k sem kw) X =
      match idxOf? X (sem.map Prod.fst), idxOf? X (kw.map Prod.fst) with
      | some i, some j => some (sw / (k + ((i : ℚ) + 1)) + kww / (k + ((j : ℚ) + 1)))
      | some i, none => some (sw / (k + ((i : ℚ) + 1)))
      | none, some j => some (kww / (k + ((j : ℚ) + 1)))
      | none, none => none := by
  unfold Retrieval.reciprocalRankFusion
  cases hsem : idxOf? X (sem.map Prod.fst) with
  | none =>
    have hsmem : X ∉ sem.map Prod.fst := (idxOf?_eq_none _ _).mp hsem
    cases hkw : idxOf? X (kw.map Prod.fst) with
    | none =>
      have hkmem : X ∉ kw.map Prod.fst := (idxOf?_eq_none _ _).mp hkw
      rw [addRanks_lookup_of_not_mem _ _ _ _ _ _ hkmem,
        addRanks_lookup_of_not_mem _ _ _ _ _ _ hsmem]
      simp [alookup]
    | some j =>
      rw [addRanks_lookup_of_mem _ _ _ _ _ _ j hk hkw,
        addRanks_lookup_of_not_mem _ _ _ _ _ _ hsmem]
      simp only [alookup, Option.getD_none]
      norm_num
      ring_nf
  | some i =>
    cases hkw : idxOf? X (kw.map Prod.fst) with
    | none =>
      have hkmem : X ∉ kw.map Prod.fst := (idxOf?_eq_none _ _).mp hkw
      rw [addRanks_lookup_of_not_mem _ _ _ _ _ _ hkmem,
        addRanks_lookup_of_mem _ _ _ _ _ _ i hs hsem]
      simp only [alookup, Option.getD_none]
      norm_num
      ring_nf
    | some j =>
      rw [addRanks_lookup_of_mem _ _ _ _ _ _ j hk hkw,
        addRanks_lookup_of_mem _ _ _ _ _ _ i hs hsem]
      simp only [alookup, Option.getD_none, Option.getD_some]
      norm_num
      ring_nf

/-- Witness for **C1** at concrete inputs: id `y` is at rank `1+1 = 2` of
the semantic list and rank `0+1 = 1` of the keyword list, so its combined
score is `(1/2)/(60+2) + (1/2)/(60+1)`. -/
theorem rrf_combined_score_formula_witness :
    alookup (Retrieval.reciprocalRankFusion (1/2) (1/2) 60 semEx kwEx) "y".data =
      some (1/2 / (60 + (((1 : ℕ) : ℚ) + 1)) + 1/2 / (60 + (((0 : ℕ) : ℚ) + 1))) :=
  (rrf_combined_score_formula semEx kwEx (1/2) (1/2) 60 "y".data
    (by decide) (by decide)).trans rfl

/-! ## Claims about the retrieval facade -/

/-- **C10.**  For every retriever state, query and `n`, calling `retrieve`
with a method string outside `{semantic, keyword, hybrid}` returns the
empty list: neither sub-search is run (both `if method in (...)` guards
fail), the residual `else` branch builds a dict from the empty keyword
list, and no exception is raised (`retrieve` is total); in particular the
unknown method is not treated as `hybrid`. -/
theorem retrieve_unknown_method_empty (R : Retrieval.HybridRetriever)
    (query : String) (n : Nat) (method : String)
    (h1 : method ≠ "hybrid") (h2 : method ≠ "semantic") (h3 : method ≠ "keyword") :
    R.retrieve query n method = [] := by
  unfold Retrieval.HybridRetriever.retrieve Retrieval.HybridRetriever.combinedScores
  simp [h1, h2, h3, dictOfPairs, sortDescBy]

/-- Witness for **C10**: the concrete retriever `Rex` with the unknown
method string `"bm25"` retrieves nothing. -/
theorem retrieve_unknown_method_empty_witness :
    Rex.retrieve "q" 5 "bm25" = [] :=
  retrieve_unknown_method_empty Rex "q" 5 "bm25" (by decide) (by decide) (by decide)

/-- **C3 (amended).**  Construction performs no validation at all: for
every configuration — including negative weights or negative `k` — and
every corpus snapshot, `HybridRetriever.__init__`/`_initialize` completes
and copies `semantic_weight`, `keyword_weight` and `rrf_k` verbatim from
the configuration into the retriever used at query time. -/
theorem init_copies_config_without_validation (cfg : Retrieval.RAGConfig)
    (corpus : Retrieval.CorpusData)
    (bm25okapi : List (List Str) → List Str → List ℚ)
    (chromaQuery : String → Nat → List (Str × ℚ)) :
    (Retrieval.HybridRetriever.init cfg corpus bm25okapi chromaQuery).semantic_weight
        = cfg.semantic_weight ∧
    (Retrieval.HybridRetriever.init cfg corpus bm25okapi chromaQuery).keyword_weight
        = cfg.keyword_weight ∧
    (Retrieval.HybridRetriever.init cfg corpus bm25okapi chromaQuery).rrf_k
        = (cfg.rrf_k : ℚ) := by
  unfold Retrieval.HybridRetriever.init
  by_cases h : corpus.ids = [] <;> simp [h]

/-- Counterexample for **C3** as stated: constructing the retriever from a
configuration with `semantic_weight = -1`, `keyword_weight = -2` and
`rrf_k = -60` does not raise — construction completes and the invalid
values are stored and survive into query time. -/
theorem init_accepts_negative_weights :
    (Retrieval.HybridRetriever.init cfgBad corpusEx (fun _ _ => []) (fun _ _ => [])).semantic_weight
        = -1 ∧
    (Retrieval.HybridRetriever.init cfgBad corpusEx (fun _ _ => []) (fun _ _ => [])).keyword_weight
        = -2 ∧
    (Retrieval.HybridRetriever.init cfgBad corpusEx (fun _ _ => []) (fun _ _ => [])).rrf_k
        = -60 := by
  refine ⟨?_, ?_, ?_⟩ <;> decide

theorem keywordSearch_pos (R : Retrieval.HybridRetriever) (query : String)
    (n : Nat) (p : Str × ℚ) (hp : p ∈ R.keywordSearch query n) : 0 < p.2 := by
  unfold Retrieval.HybridRetriever.keywordSearch at hp
  cases hb : R.bm25 with
  | none => rw [hb] at hp; simp at hp
  | some getScores =>
    rw [hb] at hp
    simp only [List.mem_filterMap] at hp
    obtain ⟨i, _, hi⟩ := hp
    by_cases hpos : (getScores (Retrieval.tokenize query.data)).getD i 0 > 0
    · rw [if_pos hpos] at hi
      cases hi
      exact hpos
    · rw [if_neg hpos] at hi
      cases hi

theorem hydrate_score (R : Retrieval.HybridRetriever) (method : String)
    (p : Str × ℚ) (r : Retrieval.RetrievalResult)
    (h : R.hydrate method p = some r) : r.score = p.2 := by
  unfold Retrieval.HybridRetriever.hydrate at h
  by_cases hc : R.doc_ids.contains p.1
  · rw [if_pos hc] at h
    cases h
    rfl
  · rw [if_neg hc] at h
    cases h

/-- **C8.**  For every retriever state, query and `n`, `retrieve` with
method `"keyword"` never returns a result whose keyword relevance score is
zero or negative: `_keyword_search` filters out every score `≤ 0` before
returning, and the result's score is exactly that search score. -/
theorem retrieve_keyword_scores_positive (R : Retrieval.HybridRetriever)
    (query : String) (n : Nat) (r : Retrieval.RetrievalResult)
    (hr : r ∈ R.retrieve query n "keyword") : 0 < r.score := by
  unfold Retrieval.HybridRetriever.retrieve at hr
  obtain ⟨p, hp, hfp⟩ := List.mem_filterMap.mp hr
  have hp2 : p ∈ R.combinedScores query n "keyword" :=
    mem_sortDescBy _ _ _ ((List.take_sublist _ _).mem hp)
  have hp3 : p ∈ dictOfPairs (R.keywordSearch query (n * 2)) := hp2
  have hp4 : p ∈ R.keywordSearch query (n * 2) := mem_dictOfPairs _ _ hp3
  rw [hydrate_score R "keyword" p r hfp]
  exact keywordSearch_pos R query (n * 2) p hp4

/-- Witness for **C8**: on the concrete retriever `Rex` (both documents
score 1 under the BM25 oracle), the first keyword result is `rEx8` and its
score is positive. -/
theorem retrieve_keyword_scores_positive_witness : 0 < rEx8.score :=
  retrieve_keyword_scores_positive Rex "q" 5 rEx8 (by decide)

/-- **C2 (amended).**  For every retriever state, query, `n` and method,
`retrieve` returns at most `n` results, sorted by non-increasing (not
necessarily strictly decreasing) combined score: the combined dict is
sorted descending by score, truncated to `n`, and the stale-id filter
preserves both bounds.  (Strictness fails on ties; see the
counterexample.) -/
theorem retrieve_length_le_and_sorted_desc (R : Retrieval.HybridRetriever)
    (query : String) (n : Nat) (method : String) :
    (R.retrieve query n method).length ≤ n ∧
    List.Chain' (fun a b : Retrieval.RetrievalResult => b.score ≤ a.score)
      (R.retrieve query n method) := by
  constructor
  · unfold Retrieval.HybridRetriever.retrieve
    exact le_trans (List.length_filterMap_le _ _) (List.length_take_le _ _)
  · unfold Retrieval.HybridRetriever.retrieve
    apply List.Pairwise.chain'
    rw [List.pairwise_filterMap]
    have hsorted := (sortDescBy_pairwise (fun p : Str × ℚ => p.2)
      (R.combinedScores query n method)).sublist (List.take_sublist n _)
    apply hsorted.imp
    intro a b hab x hx y hy
    rw [hydrate_score R method a x hx, hydrate_score R method b y hy]
    exact hab

/-- Counterexample for **C2** as stated: on the concrete retriever `Rex`,
whose two corpus documents tie with BM25 score 1, `retrieve` with method
`"keyword"` returns two results with equal scores `[1, 1]` — sorted
non-increasingly, but not strictly sorted by descending combined score. -/
theorem retrieve_strict_sort_counterexample :
    ((Rex.retrieve "q" 5 "keyword").map (fun r => r.score)) = [1, 1] ∧
    ¬ strictlyDescending ((Rex.retrieve "q" 5 "keyword").map (fun r => r.score)) := by
  constructor
  · decide
  · intro h
    rw [show ((Rex.retrieve "q" 5 "keyword").map (fun r => r.score)) = [1, 1] from by decide] at h
    simp [strictlyDescending] at h

/-! ## Claims about the segmenter: easy cases -/

/-- **C4 (amended).**  Segmenting a document whose cleaned text is empty
does not yield an empty chunk sequence: no section headers are found, so
the no-sections fallback emits exactly one whole-document chunk (id
`act_<n>_full`, empty content, start position 0), for every tokenizer,
metadata and thresholds. -/
theorem chunk_document_empty_input_single_chunk (tok : Str → Nat)
    (an : Option String) (num : Option Int) (maxT minT : Nat) :
    Chunker.chunkDocument tok
        { cleaned_text := some [], act_name := an, act_number := num } maxT minT =
      [{ chunk_id := "act_".data ++ intStr (num.getD 0) ++ "_full".data
         act_name := an.getD "Unknown Act"
         act_number := num.getD 0
         part := none
         section_number := none
         section_title := none
         content := []
         token_count := tok []
         start_position := 0 }] := rfl

/-- Counterexample for **C4** as stated: on the concrete empty document,
`chunk_document` returns one chunk (the `act_0_full` fallback), not the
empty sequence the claim demands. -/
theorem chunk_document_empty_input_counterexample :
    Chunker.chunkDocument tokLen docEmptyFx 1000 50 ≠ [] ∧
    (Chunker.chunkDocument tokLen docEmptyFx 1000 50).map (fun c => c.chunk_id) =
      ["act_0_full".data] := by
  refine ⟨?_, by decide⟩
  decide

/-- **C9.**  When a too-small chunk is merged into the immediately
preceding emitted chunk (`mergeSmall`, the `chunks[-1] = LegalChunk(...)`
update inside `chunk_document`), only the content (appended with a
blank-line separator) and the recomputed token count change; `chunk_id`,
`act_name`, `act_number`, `part`, `section_number`, `section_title` and
`start_position` are all copied unchanged from the predecessor. -/
theorem merge_small_preserves_other_fields (tok : Str → Nat)
    (prev : Chunker.LegalChunk) (ct : Str) :
    (Chunker.mergeSmall tok prev ct).chunk_id = prev.chunk_id ∧
    (Chunker.mergeSmall tok prev ct).act_name = prev.act_name ∧
    (Chunker.mergeSmall tok prev ct).act_number = prev.act_number ∧
    (Chunker.mergeSmall tok prev ct).part = prev.part ∧
    (Chunker.mergeSmall tok prev ct).section_number = prev.section_number ∧
    (Chunker.mergeSmall tok prev ct).section_title = prev.section_title ∧
    (Chunker.mergeSmall tok prev ct).start_position = prev.start_position ∧
    (Chunker.mergeSmall tok prev ct).content = prev.content ++ nlnl ++ ct ∧
    (Chunker.mergeSmall tok prev ct).token_count = tok (prev.content ++ nlnl ++ ct) :=
  ⟨rfl, rfl, rfl, rfl, rfl, rfl, rfl, rfl, rfl⟩

/-! ## Helper lemmas: the finditer scanner and section spans -/

theorem matchSectionA_len_pos (rest : Str) (m : Chunker.SecMatchData)
    (h : Chunker.matchSectionA rest = some m) : 0 < m.len := by
  simp only [Chunker.matchSectionA] at h
  split at h
  · split at h
    · simp only [Option.some.injEq] at h
      subst h
      simp only []
      omega
    · cases h
  · cases h

theorem matchSectionB_len_pos (rest : Str) (m : Chunker.SecMatchData)
    (h : Chunker.matchSectionB rest = some m) : 0 < m.len := by
  simp only [Chunker.matchSectionB] at h
  split at h
  · split at h
    · simp only [Option.some.injEq] at h
      subst h
      simp only []
      omega
    · cases h
  · cases h

theorem matchSectionAt_len_pos (rest : Str) (m : Chunker.SecMatchData)
    (h : Chunker.matchSectionAt rest = some m) : 0 < m.len := by
  unfold Chunker.matchSectionAt at h
  cases hA : Chunker.matchSectionA rest with
  | some m' =>
    rw [hA] at h
    simp only [Option.some.injEq] at h
    exact h ▸ matchSectionA_len_pos rest m' hA
  | none =>
    rw [hA] at h
    exact matchSectionB_len_pos rest m h

theorem finditerAux_mem {α : Type} (matchAt : Str → Nat → Option (α × Nat)) (cs : Str) :
    ∀ (fuel p : Nat) (sp : Chunker.Span α), sp ∈ Chunker.finditerAux matchAt cs p fuel →
      p ≤ sp.start ∧ sp.start < cs.length := by
  intro fuel
  induction fuel with
  | zero => intro p sp h; simp [Chunker.finditerAux] at h
  | succ fuel ih =>
    intro p sp h
    unfold Chunker.finditerAux at h
    by_cases hp : p < cs.length
    · rw [if_pos hp] at h
      cases hm : matchAt cs p with
      | some al =>
        rw [hm] at h
        rcases List.mem_cons.mp h with h1 | h2
        · subst h1; exact ⟨le_refl _, hp⟩
        · have h3 := ih _ _ h2
          exact ⟨le_trans (Nat.le_add_right p al.2) h3.1, h3.2⟩
      | none =>
        rw [hm] at h
        have h3 := ih _ _ h
        exact ⟨le_trans (Nat.le_succ p) h3.1, h3.2⟩
    · rw [if_neg hp] at h
      simp at h

theorem finditerAux_chain {α : Type} (matchAt : Str → Nat → Option (α × Nat)) (cs : Str)
    (hpos : ∀ p a k, matchAt cs p = some (a, k) → 0 < k) :
    ∀ (fuel p : Nat), List.Chain' (fun a b : Chunker.Span α => a.start < b.start)
      (Chunker.finditerAux matchAt cs p fuel) := by
  intro fuel
  induction fuel with
  | zero => intro p; simp [Chunker.finditerAux]
  | succ fuel ih =>
    intro p
    unfold Chunker.finditerAux
    by_cases hp : p < cs.length
    · rw [if_pos hp]
      cases hm : matchAt cs p with
      | some al =>
        rw [List.chain'_cons']
        refine ⟨?_, ih _⟩
        intro y hy
        have hmem := (finditerAux_mem matchAt cs fuel (p + al.2) y
          (List.mem_of_mem_head? hy)).1
        have hk := hpos p al.1 al.2 (by rw [hm])
        simp only []
        omega
      | none => exact ih _
    · rw [if_neg hp]
      simp

theorem finditer_mem {α : Type} (matchAt : Str → Nat → Option (α × Nat)) (cs : Str)
    (sp : Chunker.Span α) (h : sp ∈ Chunker.finditer matchAt cs) : sp.start < cs.length :=
  (finditerAux_mem matchAt cs _ _ sp h).2

theorem finditer_chain {α : Type} (matchAt : Str → Nat → Option (α × Nat)) (cs : Str)
    (hpos : ∀ p a k, matchAt cs p = some (a, k) → 0 < k) :
    List.Chain' (fun a b : Chunker.Span α => a.start < b.start) (Chunker.finditer matchAt cs) :=
  finditerAux_chain matchAt cs hpos _ _

theorem insAsc_append {α : Type} (key : α → Nat) (x : α) (acc : List α)
    (h : ∀ y ∈ acc, key y ≤ key x) : insAsc key x acc = acc ++ [x] := by
  induction acc with
  | nil => simp [insAsc]
  | cons y ys ih =>
    have hy : key y ≤ key x := h y (List.mem_cons_self _ _)
    simp only [insAsc, if_pos hy, List.cons_append]
    rw [ih (fun z hz => h z (List.mem_cons_of_mem _ hz))]

theorem sortAscBy_of_pairwise {α : Type} (key : α → Nat) (l : List α)
    (h : l.Pairwise (fun a b => key a ≤ key b)) : sortAscBy key l = l := by
  have main : ∀ (l acc : List α), (∀ y ∈ acc, ∀ z ∈ l, key y ≤ key z) →
      l.Pairwise (fun a b => key a ≤ key b) →
      l.foldl (fun acc x => insAsc key x acc) acc = acc ++ l := by
    intro l
    induction l with
    | nil => intro acc _ _; simp
    | cons z t ih =>
      intro acc hcross hpw
      rw [List.pairwise_cons] at hpw
      obtain ⟨hz, hpw'⟩ := hpw
      simp only [List.foldl_cons]
      rw [insAsc_append key z acc (fun y hy => hcross y hy z (List.mem_cons_self _ _))]
      rw [ih (acc ++ [z]) ?_ hpw']
      · simp
      · intro y hy w hw
        rcases List.mem_append.mp hy with h1 | h1
        · exact hcross y h1 w (List.mem_cons_of_mem _ hw)
        · simp only [List.mem_singleton] at h1
          subst h1
          exact hz w hw
  simpa using main l [] (by simp) h

theorem assignEnds_cons2 (textLen : Nat) (m1 : Chunker.SecMatchData) (s1 : Nat)
    (m2 : Chunker.SecMatchData) (s2 : Nat) (t2 : List (Chunker.SecMatchData × Nat)) :
    Chunker.assignEnds textLen ((m1, s1) :: (m2, s2) :: t2) =
      ({ section_number := m1.num, title := pyStrip m1.title, start := s1,
         stop := s2 } : Chunker.SectionInfo) ::
        Chunker.assignEnds textLen ((m2, s2) :: t2) := rfl

theorem assignEnds_spec (textLen : Nat) :
    ∀ es : List (Chunker.SecMatchData × Nat),
      List.Chain' (fun a b => a.2 < b.2) es →
      (∀ e ∈ es, e.2 < textLen) →
      List.Chain' (fun a b : Chunker.SectionInfo => a.stop = b.start ∧ a.start < b.start)
          (Chunker.assignEnds textLen es) ∧
      (Chunker.assignEnds textLen es).map (fun s => s.start) = es.map (fun e => e.2) ∧
      (∀ hne : Chunker.assignEnds textLen es ≠ [],
        ((Chunker.assignEnds textLen es).getLast hne).stop = textLen) ∧
      (∀ s ∈ Chunker.assignEnds textLen es, s.start < s.stop) := by
  intro es
  induction es with
  | nil =>
    intro _ _
    refine ⟨by simp [Chunker.assignEnds], by simp [Chunker.assignEnds], ?_, ?_⟩
    · intro hne; exact absurd rfl hne
    · intro s hs; simp [Chunker.assignEnds] at hs
  | cons e1 t ih =>
    intro hchain hlt
    cases t with
    | nil =>
      obtain ⟨m, s⟩ := e1
      refine ⟨by simp [Chunker.assignEnds], by simp [Chunker.assignEnds], ?_, ?_⟩
      · intro hne; simp [Chunker.assignEnds]
      · intro si hsi
        simp only [Chunker.assignEnds, List.mem_singleton] at hsi
        subst hsi
        exact hlt (m, s) (List.mem_singleton.mpr rfl)
    | cons e2 t2 =>
      obtain ⟨m1, s1⟩ := e1
      obtain ⟨m2, s2⟩ := e2
      rw [List.chain'_cons] at hchain
      obtain ⟨h12, hchain'⟩ := hchain
      have hlt' : ∀ e ∈ (m2, s2) :: t2, e.2 < textLen :=
        fun e he => hlt e (List.mem_cons_of_mem _ he)
      obtain ⟨ihchain, ihmap, ihlast, ihmem⟩ := ih hchain' hlt'
      have hne2 : Chunker.assignEnds textLen ((m2, s2) :: t2) ≠ [] := by
        intro hcontra
        have hlen := congrArg List.length ihmap
        rw [hcontra] at hlen
        simp at hlen
      rw [assignEnds_cons2]
      refine ⟨?_, ?_, ?_, ?_⟩
      · rw [List.chain'_cons']
        refine ⟨?_, ihchain⟩
        intro y hy
        cases hh : Chunker.assignEnds textLen ((m2, s2) :: t2) with
        | nil => exact absurd hh hne2
        | cons y0 ys =>
          rw [hh] at hy
          simp only [List.head?_cons, Option.mem_def, Option.some.injEq] at hy
          subst hy
          rw [hh] at ihmap
          simp only [List.map_cons, List.cons.injEq] at ihmap
          exact ⟨ihmap.1.symm, by rw [ihmap.1]; exact h12⟩
      · simp only [List.map_cons, ihmap]
      · intro hne
        rw [List.getLast_cons hne2]
        exact ihlast hne2
      · intro si hsi
        rcases List.mem_cons.mp hsi with h1 | h1
        · subst h1
          exact h12
        · exact ihmem si h1

theorem sectionMatchAt_pos (cs : Str) (p : Nat) (a : Chunker.SecMatchData) (k : Nat)
    (h : Chunker.sectionMatchAt cs p = some (a, k)) : 0 < k := by
  unfold Chunker.sectionMatchAt at h
  by_cases hl : Chunker.isLineStart cs p
  · rw [if_pos hl] at h
    cases hm : Chunker.matchSectionAt (cs.drop p) with
    | some m =>
      rw [hm] at h
      simp only [Option.map_some', Option.some.injEq, Prod.mk.injEq] at h
      rw [← h.2]
      exact matchSectionAt_len_pos _ _ hm
    | none => rw [hm] at h; simp at h
  · rw [if_neg hl] at h
    simp at h

theorem findSections_spec (cs : Str) :
    List.Chain' (fun a b : Chunker.SectionInfo => a.stop = b.start ∧ a.start < b.start)
      (Chunker.findSections cs) ∧
    (∀ hne : Chunker.findSections cs ≠ [],
      ((Chunker.findSections cs).getLast hne).stop = cs.length) ∧
    (∀ s ∈ Chunker.findSections cs, s.start < s.stop ∧ s.start < cs.length) := by
  have hpos : ∀ p a k, Chunker.sectionMatchAt cs p = some (a, k) → 0 < k :=
    fun p a k h => sectionMatchAt_pos cs p a k h
  have chainSpans := finditer_chain (Chunker.sectionMatchAt) cs hpos
  have chain_es : List.Chain' (fun a b : Chunker.SecMatchData × Nat => a.2 < b.2)
      ((Chunker.finditer Chunker.sectionMatchAt cs).map (fun sp => (sp.val, sp.start))) := by
    rw [List.chain'_map]
    exact chainSpans
  have es_mem_lt : ∀ e ∈ (Chunker.finditer Chunker.sectionMatchAt cs).map
      (fun sp => (sp.val, sp.start)), e.2 < cs.length := by
    intro e he
    obtain ⟨sp, hsp, rfl⟩ := List.mem_map.mp he
    exact finditer_mem _ cs sp hsp
  haveI : IsTrans (Chunker.SecMatchData × Nat) (fun a b => a.2 < b.2) :=
    ⟨fun x y z h1 h2 => lt_trans h1 h2⟩
  have hsorted : List.Pairwise (fun a b : Chunker.SecMatchData × Nat => a.2 ≤ b.2)
      ((Chunker.finditer Chunker.sectionMatchAt cs).map (fun sp => (sp.val, sp.start))) :=
    (List.chain'_iff_pairwise.mp chain_es).imp le_of_lt
  have hid : sortAscBy (fun e => e.2) ((Chunker.finditer Chunker.sectionMatchAt cs).map
      (fun sp => (sp.val, sp.start))) =
      (Chunker.finditer Chunker.sectionMatchAt cs).map (fun sp => (sp.val, sp.start)) :=
    sortAscBy_of_pairwise _ _ hsorted
  have hfs : Chunker.findSections cs = Chunker.assignEnds cs.length
      ((Chunker.finditer Chunker.sectionMatchAt cs).map (fun sp => (sp.val, sp.start))) := by
    unfold Chunker.findSections
    rw [hid]
  obtain ⟨hc, hmap, hlast, hmem⟩ := assignEnds_spec cs.length
    ((Chunker.finditer Chunker.sectionMatchAt cs).map (fun sp => (sp.val, sp.start)))
    chain_es es_mem_lt
  rw [hfs]
  refine ⟨hc, hlast, ?_⟩
  intro s hs
  refine ⟨hmem s hs, ?_⟩
  have hstart : s.start ∈ (Chunker.assignEnds cs.length
      ((Chunker.finditer Chunker.sectionMatchAt cs).map (fun sp => (sp.val, sp.start)))).map
        (fun s => s.start) := List.mem_map_of_mem _ hs
  rw [hmap] at hstart
  obtain ⟨e, he, heq⟩ := List.mem_map.mp hstart
  rw [← heq]
  exact es_mem_lt e he

theorem spans_cover :
    ∀ (ss : List Chunker.SectionInfo) (len : Nat),
      List.Chain' (fun a b : Chunker.SectionInfo => a.stop = b.start ∧ a.start < b.start) ss →
      (hne : ss ≠ []) →
      ((ss.getLast hne).stop = len) →
      ∀ p, (ss.head hne).start ≤ p → p < len →
        ∃ s ∈ ss, s.start ≤ p ∧ p < s.stop := by
  intro ss
  induction ss with
  | nil => intro len _ hne; exact absurd rfl hne
  | cons s1 t ih =>
    intro len hchain hne hlast p hp1 hp2
    cases t with
    | nil =>
      refine ⟨s1, List.mem_cons_self _ _, hp1, ?_⟩
      simp only [List.getLast_singleton] at hlast
      rw [hlast]
      exact hp2
    | cons s2 t2 =>
      rw [List.chain'_cons] at hchain
      obtain ⟨h12, hchain'⟩ := hchain
      by_cases hcase : p < s2.start
      · refine ⟨s1, List.mem_cons_self _ _, hp1, ?_⟩
        rw [h12.1]
        exact hcase
      · have hne2 : s2 :: t2 ≠ [] := by simp
        have hlast2 : ((s2 :: t2).getLast hne2).stop = len := by
          rw [← hlast]
          rw [List.getLast_cons hne2]
        obtain ⟨s, hs, hs1, hs2⟩ := ih len hchain' hne2 hlast2 p (le_of_not_lt hcase) hp2
        exact ⟨s, List.mem_cons_of_mem _ hs, hs1, hs2⟩

theorem updateLast_map_eq {α β : Type} (f : α → α) (g : α → β)
    (hg : ∀ x, g (f x) = g x) :
    ∀ l : List α, (Chunker.updateLast f l).map g = l.map g := by
  intro l
  induction l with
  | nil => simp [Chunker.updateLast]
  | cons x t ih =>
    cases t with
    | nil => simp [Chunker.updateLast, hg]
    | cons y t2 =>
      show (x :: Chunker.updateLast f (y :: t2)).map g = _
      simp only [List.map_cons]
      rw [show (Chunker.updateLast f (y :: t2)).map g = (y :: t2).map g from ih]
      simp

theorem emitChunks_starts (tok : Str → Nat) (minT : Nat) (actN : Int) (actName : String)
    (sec : Chunker.SectionInfo) (part : Option Str) (nSub : Nat) :
    ∀ (cts : List Str) (i : Nat) (chunks : List Chunker.LegalChunk)
      (seen : List (Str × Nat)),
      (∀ c ∈ chunks, c.start_position ≤ sec.start) →
      List.Chain' (fun a b => a ≤ b) (chunks.map (fun c => c.start_position)) →
      (∀ c ∈ (Chunker.emitChunks tok minT actN actName sec part nSub cts i chunks seen).1,
        c.start_position ≤ sec.start) ∧
      List.Chain' (fun a b => a ≤ b)
        (((Chunker.emitChunks tok minT actN actName sec part nSub cts i chunks seen).1).map
          (fun c => c.start_position)) := by
  intro cts
  induction cts with
  | nil => intro i chunks seen h1 h2; exact ⟨h1, h2⟩
  | cons ct rest ih =>
    intro i chunks seen h1 h2
    unfold Chunker.emitChunks
    by_cases hm : tok ct < minT ∧ chunks ≠ []
    · rw [if_pos hm]
      apply ih
      · intro c hc
        -- membership in updateLast: its image under start_position is unchanged
        have hmap := updateLast_map_eq (fun prev => Chunker.mergeSmall tok prev ct)
          (fun c => c.start_position) (fun x => rfl) chunks
        have hmem : c.start_position ∈ (Chunker.updateLast
            (fun prev => Chunker.mergeSmall tok prev ct) chunks).map
              (fun c => c.start_position) := List.mem_map_of_mem _ hc
        rw [hmap] at hmem
        obtain ⟨c', hc', heq⟩ := List.mem_map.mp hmem
        rw [← heq]
        exact h1 c' hc'
      · rw [updateLast_map_eq (fun prev => Chunker.mergeSmall tok prev ct)
          (fun c => c.start_position) (fun x => rfl) chunks]
        exact h2
    · rw [if_neg hm]
      apply ih
      · intro c hc
        rcases List.mem_append.mp hc with h3 | h3
        · exact h1 c h3
        · simp only [List.mem_singleton] at h3
          subst h3
          exact le_refl _
      · rw [List.map_append, List.chain'_append]
        refine ⟨h2, by simp, ?_⟩
        intro x hx y hy
        simp only [List.map_cons, List.map_nil, List.head?_cons,
          Option.mem_def, Option.some.injEq] at hy
        subst hy
        obtain ⟨c', hc', heq⟩ := List.mem_map.mp (List.mem_of_mem_getLast? hx)
        rw [← heq]
        exact h1 c' hc'

theorem sectionsLoop_starts (tok : Str → Nat) (maxT minT : Nat) (actN : Int)
    (actName : String) (text : Str) :
    ∀ (secs : List Chunker.SectionInfo) (chunks : List Chunker.LegalChunk)
      (seen : List (Str × Nat)),
      List.Pairwise (fun a b : Chunker.SectionInfo => a.start < b.start) secs →
      (∀ s ∈ secs, s.start ≤ text.length) →
      (∀ c ∈ chunks, ∀ s ∈ secs, c.start_position ≤ s.start) →
      (∀ c ∈ chunks, c.start_position ≤ text.length) →
      List.Chain' (fun a b => a ≤ b) (chunks.map (fun c => c.start_position)) →
      List.Chain' (fun a b => a ≤ b)
        ((Chunker.sectionsLoop tok maxT minT actN actName text secs chunks seen).map
          (fun c => c.start_position)) ∧
      (∀ c ∈ Chunker.sectionsLoop tok maxT minT actN actName text secs chunks seen,
        c.start_position ≤ text.length) := by
  intro secs
  induction secs with
  | nil => intro chunks seen _ _ _ h4 h5; exact ⟨h5, h4⟩
  | cons sec rest ih =>
    intro chunks seen hpw hbound hcross hlen hchain
    rw [List.pairwise_cons] at hpw
    obtain ⟨hsec, hpw'⟩ := hpw
    unfold Chunker.sectionsLoop
    have hstep := emitChunks_starts tok minT actN actName sec
      (Chunker.findCurrentPart text sec.start)
      (Chunker.splitLargeSection tok (pyStrip (Chunker.slice text sec.start sec.stop)) maxT).length
      (Chunker.splitLargeSection tok (pyStrip (Chunker.slice text sec.start sec.stop)) maxT)
      0 chunks seen
      (fun c hc => hcross c hc sec (List.mem_cons_self _ _)) hchain
    apply ih
    · exact hpw'
    · exact fun s hs => hbound s (List.mem_cons_of_mem _ hs)
    · intro c hc s hs
      exact le_trans (hstep.1 c hc) (le_of_lt (hsec s hs))
    · intro c hc
      exact le_trans (hstep.1 c hc) (hbound sec (List.mem_cons_self _ _))
    · exact hstep.2

theorem chunkDocument_starts (tok : Str → Nat) (text : Str) (an : Option String)
    (num : Option Int) (maxT minT : Nat) :
    List.Chain' (fun a b => a ≤ b)
      ((Chunker.chunkDocument tok (mkDoc text an num) maxT minT).map
        (fun c => c.start_position)) ∧
    (∀ c ∈ Chunker.chunkDocument tok (mkDoc text an num) maxT minT,
      c.start_position ≤ text.length) := by
  obtain ⟨hchain, hlast, hmem⟩ := findSections_spec text
  haveI : IsTrans Chunker.SectionInfo (fun a b => a.start < b.start) :=
    ⟨fun x y z h1 h2 => lt_trans h1 h2⟩
  have hpw : List.Pairwise (fun a b : Chunker.SectionInfo => a.start < b.start)
      (Chunker.findSections text) :=
    List.chain'_iff_pairwise.mp (hchain.imp (fun _ _ hab => hab.2))
  have hbound : ∀ s ∈ Chunker.findSections text, s.start ≤ text.length :=
    fun s hs => le_of_lt (hmem s hs).2
  unfold mkDoc Chunker.chunkDocument
  simp only [Option.getD_some]
  cases hfs : Chunker.findSections text with
  | nil => simp
  | cons sec0 sections =>
    rw [hfs] at hpw hbound
    dsimp only
    have hpre : ∀ pre : List Chunker.LegalChunk,
        (∀ c ∈ pre, c.start_position = 0) →
        List.Chain' (fun a b => a ≤ b) (pre.map (fun c => c.start_position)) →
        List.Chain' (fun a b => a ≤ b)
          ((Chunker.sectionsLoop tok maxT minT (num.getD 0) (an.getD "Unknown Act") text
            (sec0 :: sections) pre []).map (fun c => c.start_position)) ∧
        (∀ c ∈ Chunker.sectionsLoop tok maxT minT (num.getD 0) (an.getD "Unknown Act") text
            (sec0 :: sections) pre [], c.start_position ≤ text.length) := by
      intro pre h0 hch
      apply sectionsLoop_starts tok maxT minT (num.getD 0) (an.getD "Unknown Act") text
        (sec0 :: sections) pre [] hpw hbound
      · intro c hc s _
        rw [h0 c hc]
        exact Nat.zero_le _
      · intro c hc
        rw [h0 c hc]
        exact Nat.zero_le _
      · exact hch
    by_cases hgt : sec0.start > 0
    · rw [if_pos hgt]
      by_cases hcond : pyStrip (text.take sec0.start) ≠ [] ∧
          tok (pyStrip (text.take sec0.start)) ≥ minT
      · rw [if_pos hcond]
        exact hpre _ (by intro c hc; simp at hc; rw [hc]) (by simp)
      · rw [if_neg hcond]
        exact hpre [] (by simp) (by simp)
    · rw [if_neg hgt]
      exact hpre [] (by simp) (by simp)

/-- **C7 (amended).**  For every text with at least one detected section
header: the spans computed by `find_sections` are pairwise non-overlapping
and sorted strictly ascending (each span ends exactly where the next
starts), the last span ends at the end of the text, and together they
cover every position from the first detected header to the end of the
text.  At chunk level, the emitted chunks' `start_position`s are
non-decreasing and never exceed the text length — but the region before
the first header is covered only when the preamble chunk is emitted, so
full-length coverage fails in general (see the counterexample). -/
theorem find_sections_spans_tile_and_chunk_starts_mono (tok : Str → Nat) (text : Str)
    (an : Option String) (num : Option Int) (maxT minT : Nat)
    (hne : Chunker.findSections text ≠ []) :
    List.Chain' (fun a b : Chunker.SectionInfo => a.stop = b.start ∧ a.start < b.start)
      (Chunker.findSections text) ∧
    ((Chunker.findSections text).getLast hne).stop = text.length ∧
    (∀ p, ((Chunker.findSections text).head hne).start ≤ p → p < text.length →
      ∃ s ∈ Chunker.findSections text, s.start ≤ p ∧ p < s.stop) ∧
    List.Chain' (fun a b => a ≤ b)
      ((Chunker.chunkDocument tok (mkDoc text an num) maxT minT).map
        (fun c => c.start_position)) ∧
    (∀ c ∈ Chunker.chunkDocument tok (mkDoc text an num) maxT minT,
      c.start_position ≤ text.length) := by
  obtain ⟨hchain, hlast, _⟩ := findSections_spec text
  obtain ⟨hc1, hc2⟩ := chunkDocument_starts tok text an num maxT minT
  exact ⟨hchain, hlast hne, spans_cover _ _ hchain hne (hlast hne), hc1, hc2⟩

/-- Witness for **C7 (amended)** on the concrete document `docC7`
(`"xx\nSection 1 T\nbody"`). -/
theorem find_sections_spans_tile_witness :
    Chunker.findSections "xx\nSection 1 T\nbody".data ≠ [] ∧
    List.Chain' (fun a b : Chunker.SectionInfo => a.stop = b.start ∧ a.start < b.start)
      (Chunker.findSections "xx\nSection 1 T\nbody".data) ∧
    (∀ c ∈ Chunker.chunkDocument tokLen
        (mkDoc "xx\nSection 1 T\nbody".data (some "T") (some 1)) 1000 50,
      c.start_position ≤ "xx\nSection 1 T\nbody".data.length) :=
  ⟨by decide,
   (find_sections_spans_tile_and_chunk_starts_mono tokLen "xx\nSection 1 T\nbody".data
     (some "T") (some 1) 1000 50 (by decide)).1,
   (find_sections_spans_tile_and_chunk_starts_mono tokLen "xx\nSection 1 T\nbody".data
     (some "T") (some 1) 1000 50 (by decide)).2.2.2.2⟩

/-- Counterexample for **C7** as stated: on `docC7` the preamble `xx` is
below `min_tokens`, so no chunk covers offsets 0–2; the only chunk starts
at offset 3, and the chunk ranges do not jointly cover the full source
length. -/
theorem segmentation_cover_counterexample :
    Chunker.findSections "xx\nSection 1 T\nbody".data ≠ [] ∧
    (Chunker.chunkDocument tokLen docC7 1000 50).map (fun c => c.start_position) = [3] ∧
    ¬ rangesDisjointSortedCover "xx\nSection 1 T\nbody".data.length
        (chunkRanges "xx\nSection 1 T\nbody".data.length
          (Chunker.chunkDocument tokLen docC7 1000 50)) := by
  refine ⟨by decide, by decide, ?_⟩
  intro h
  have h0 := h.2 0 (by decide)
  rw [show chunkRanges "xx\nSection 1 T\nbody".data.length
      (Chunker.chunkDocument tokLen docC7 1000 50) = [(3, 19)] from by decide] at h0
  simp at h0

/-! ## Helper lemmas: whitespace, paragraph splitting and the split loops -/

theorem dropWhile_ws_append (p : Char → Bool) (ws l : Str)
    (h : ∀ c ∈ ws, p c = true) : List.dropWhile p (ws ++ l) = List.dropWhile p l := by
  induction ws with
  | nil => simp
  | cons c t ih =>
    simp only [List.cons_append, List.dropWhile_cons,
      h c (List.mem_cons_self _ _), if_true]
    exact ih (fun c hc => h c (List.mem_cons_of_mem _ hc))

theorem pyStrip_eq_nil_iff (l : Str) :
    pyStrip l = [] ↔ ∀ c ∈ l, isPySpace c = true := by
  unfold pyStrip
  rw [List.reverse_eq_nil_iff, List.dropWhile_eq_nil_iff]
  constructor
  · intro h c hc
    rw [← List.takeWhile_append_dropWhile isPySpace l] at hc
    rcases List.mem_append.mp hc with h1 | h1
    · exact List.mem_takeWhile_imp h1
    · exact h c (List.mem_reverse.mpr h1)
  · intro h c hc
    exact h c ((List.dropWhile_sublist _).subset (List.mem_reverse.mp hc))

theorem pyStrip_ws_append (ws l : Str) (h : ∀ c ∈ ws, isPySpace c = true) :
    pyStrip (ws ++ l) = pyStrip l := by
  unfold pyStrip
  rw [dropWhile_ws_append isPySpace ws l h]

theorem splitParas_ne_nil (l : Str) : splitParas l ≠ [] := by
  induction l using splitParas.induct with
  | case1 => simp [splitParas]
  | case2 rest ih => rw [splitParas.eq_2]; simp
  | case3 c rest hguard hnil ih => exact absurd hnil ih
  | case4 c rest hguard h t hcons ih =>
    rw [splitParas.eq_3 c rest hguard, hcons]
    simp

theorem mem_splitParas_char (l : Str) :
    ∀ c ∈ l, c = '\n' ∨ ∃ p ∈ splitParas l, c ∈ p := by
  induction l using splitParas.induct with
  | case1 => intro c hc; simp at hc
  | case2 rest ih =>
    intro c hc
    rcases List.mem_cons.mp hc with h1 | h1
    · exact Or.inl h1
    rcases List.mem_cons.mp h1 with h2 | h2
    · exact Or.inl h2
    rcases ih c h2 with h3 | ⟨p, hp, hcp⟩
    · exact Or.inl h3
    · refine Or.inr ⟨p, ?_, hcp⟩
      rw [splitParas.eq_2]
      exact List.mem_cons_of_mem _ hp
  | case3 c0 rest hguard hnil ih => exact absurd hnil (splitParas_ne_nil rest)
  | case4 c0 rest hguard h t hcons ih =>
    intro c hc
    have hsplit : splitParas (c0 :: rest) = (c0 :: h) :: t := by
      rw [splitParas.eq_3 c0 rest hguard, hcons]
    rcases List.mem_cons.mp hc with h1 | h1
    · subst h1
      exact Or.inr ⟨c :: h, by rw [hsplit]; exact List.mem_cons_self _ _,
        List.mem_cons_self _ _⟩
    rcases ih c h1 with h3 | ⟨p, hp, hcp⟩
    · exact Or.inl h3
    · rw [hcons] at hp
      rcases List.mem_cons.mp hp with h4 | h4
      · subst h4
        exact Or.inr ⟨c0 :: p, by rw [hsplit]; exact List.mem_cons_self _ _,
          List.mem_cons_of_mem _ hcp⟩
      · exact Or.inr ⟨p, by rw [hsplit]; exact List.mem_cons_of_mem _ h4, hcp⟩

theorem paraLoop_cons (tok : Str → Nat) (maxT : Nat) (para : Str) (rest : List Str)
    (chunks : List Str) (current : Str) :
    Chunker.paraLoop tok maxT (para :: rest) chunks current =
      if tok (if current ≠ [] then current ++ nlnl ++ para else para) > maxT ∧ current ≠ [] then
        Chunker.paraLoop tok maxT rest (chunks ++ [pyStrip current]) para
      else
        Chunker.paraLoop tok maxT rest chunks
          (if current ≠ [] then current ++ nlnl ++ para else para) := rfl

theorem subLoop_cons (tok : Str → Nat) (maxT : Nat) (u : Str) (rest : List Str)
    (chunks : List Str) (current : Str) :
    Chunker.subLoop tok maxT (u :: rest) chunks current =
      if tok (current ++ u) > maxT ∧ pyStrip current ≠ [] then
        Chunker.subLoop tok maxT rest (chunks ++ [pyStrip current]) u
      else
        Chunker.subLoop tok maxT rest chunks (current ++ u) := rfl

theorem paraLoop_spec (tok : Str → Nat) (maxT : Nat) (P : List Str)
    (hstrip : ∀ s, tok (pyStrip s) ≤ tok s) :
    ∀ (ps chunks : List Str) (current : Str),
      (∀ p ∈ ps, p ∈ P) →
      (current = [] ∨ current ∈ P ∨ tok current ≤ maxT) →
      (∀ c ∈ chunks, tok c ≤ maxT ∨ (∃ seg ∈ P, c = pyStrip seg) ∨ pyStrip c = []) →
      (∀ c ∈ (Chunker.paraLoop tok maxT ps chunks current).1,
        tok c ≤ maxT ∨ (∃ seg ∈ P, c = pyStrip seg) ∨ pyStrip c = []) ∧
      ((Chunker.paraLoop tok maxT ps chunks current).2 = [] ∨
        (Chunker.paraLoop tok maxT ps chunks current).2 ∈ P ∨
        tok (Chunker.paraLoop tok maxT ps chunks current).2 ≤ maxT) := by
  intro ps
  induction ps with
  | nil =>
    intro chunks current _ hinv hgood
    exact ⟨hgood, hinv⟩
  | cons para rest ih =>
    intro chunks current hP hinv hgood
    rw [paraLoop_cons]
    have hpara : para ∈ P := hP para (List.mem_cons_self _ _)
    have hP' : ∀ p ∈ rest, p ∈ P := fun p hp => hP p (List.mem_cons_of_mem _ hp)
    by_cases hcond : tok (if current ≠ [] then current ++ nlnl ++ para else para) > maxT ∧
        current ≠ []
    · rw [if_pos hcond]
      refine ih _ _ hP' (Or.inr (Or.inl hpara)) ?_
      intro c hc
      rcases List.mem_append.mp hc with h1 | h1
      · exact hgood c h1
      · simp only [List.mem_singleton] at h1
        subst h1
        rcases hinv with h2 | h2 | h2
        · exact absurd h2 hcond.2
        · exact Or.inr (Or.inl ⟨current, h2, rfl⟩)
        · exact Or.inl (le_trans (hstrip current) h2)
    · rw [if_neg hcond]
      refine ih _ _ hP' ?_ hgood
      by_cases hc0 : current = []
      · subst hc0
        refine Or.inr (Or.inl ?_)
        simpa using hpara
      · have hle : tok (if current ≠ [] then current ++ nlnl ++ para else para) ≤ maxT := by
          rcases not_and_or.mp hcond with h1 | h1
          · exact le_of_not_lt h1
          · exact absurd hc0 (by simpa using h1)
        exact Or.inr (Or.inr hle)

theorem paraLoop_result_nil (tok : Str → Nat) (maxT : Nat) :
    ∀ (ps chunks : List Str) (current : Str),
      (Chunker.paraLoop tok maxT ps chunks current).1 = [] →
      chunks = [] ∧
      ((∀ c ∈ (Chunker.paraLoop tok maxT ps chunks current).2, isPySpace c = true) →
        (∀ c ∈ current, isPySpace c = true) ∧ ∀ p ∈ ps, ∀ c ∈ p, isPySpace c = true) := by
  intro ps
  induction ps with
  | nil =>
    intro chunks current h
    refine ⟨h, ?_⟩
    intro hws
    exact ⟨hws, by simp⟩
  | cons para rest ih =>
    intro chunks current h
    rw [paraLoop_cons] at h
    by_cases hcond : tok (if current ≠ [] then current ++ nlnl ++ para else para) > maxT ∧
        current ≠ []
    · rw [if_pos hcond] at h
      have := (ih _ _ h).1
      simp at this
    · rw [if_neg hcond] at h
      obtain ⟨h1, h2⟩ := ih _ _ h
      refine ⟨h1, ?_⟩
      intro hws
      rw [paraLoop_cons, if_neg hcond] at hws
      obtain ⟨htest, hrest⟩ := h2 hws
      by_cases hc0 : current = []
      · subst hc0
        simp only [ne_eq, not_true_eq_false, if_false] at htest
        refine ⟨by simp, ?_⟩
        intro p hp
        rcases List.mem_cons.mp hp with h3 | h3
        · subst h3; exact htest
        · exact hrest p h3
      · rw [if_pos hc0] at htest
        rw [List.forall_mem_append, List.forall_mem_append] at htest
        refine ⟨htest.1.1, ?_⟩
        intro p hp
        rcases List.mem_cons.mp hp with h3 | h3
        · subst h3; exact htest.2
        · exact hrest p h3

theorem subLoop_spec (tok : Str → Nat) (maxT : Nat) (P : List Str)
    (hstrip : ∀ s, tok (pyStrip s) ≤ tok s) :
    ∀ (us chunks : List Str) (current : Str),
      (∀ u ∈ us, u ∈ P) →
      (current = [] ∨ tok current ≤ maxT ∨
        ∃ ws seg, (∀ c ∈ ws, isPySpace c = true) ∧ seg ∈ P ∧ current = ws ++ seg) →
      (∀ c ∈ chunks, tok c ≤ maxT ∨ (∃ seg ∈ P, c = pyStrip seg) ∨ pyStrip c = []) →
      (∀ c ∈ (Chunker.subLoop tok maxT us chunks current).1,
        tok c ≤ maxT ∨ (∃ seg ∈ P, c = pyStrip seg) ∨ pyStrip c = []) ∧
      ((Chunker.subLoop tok maxT us chunks current).2 = [] ∨
        tok (Chunker.subLoop tok maxT us chunks current).2 ≤ maxT ∨
        ∃ ws seg, (∀ c ∈ ws, isPySpace c = true) ∧ seg ∈ P ∧
          (Chunker.subLoop tok maxT us chunks current).2 = ws ++ seg) := by
  intro us
  induction us with
  | nil =>
    intro chunks current _ hinv hgood
    exact ⟨hgood, hinv⟩
  | cons u rest ih =>
    intro chunks current hP hinv hgood
    rw [subLoop_cons]
    have hu : u ∈ P := hP u (List.mem_cons_self _ _)
    have hP' : ∀ w ∈ rest, w ∈ P := fun w hw => hP w (List.mem_cons_of_mem _ hw)
    by_cases hcond : tok (current ++ u) > maxT ∧ pyStrip current ≠ []
    · rw [if_pos hcond]
      refine ih _ _ hP' (Or.inr (Or.inr ⟨[], u, by simp, hu, by simp⟩)) ?_
      intro c hc
      rcases List.mem_append.mp hc with h1 | h1
      · exact hgood c h1
      · simp only [List.mem_singleton] at h1
        subst h1
        rcases hinv with h2 | h2 | ⟨ws, seg, hws, hseg, heq⟩
        · subst h2
          exact absurd rfl hcond.2
        · exact Or.inl (le_trans (hstrip current) h2)
        · subst heq
          exact Or.inr (Or.inl ⟨seg, hseg, pyStrip_ws_append ws seg hws⟩)
    · rw [if_neg hcond]
      refine ih _ _ hP' ?_ hgood
      rcases not_and_or.mp hcond with h1 | h1
      · exact Or.inr (Or.inl (le_of_not_lt h1))
      · have hstripnil : pyStrip current = [] := by simpa using h1
        have hwscur : ∀ c ∈ current, isPySpace c = true :=
          (pyStrip_eq_nil_iff current).mp hstripnil
        exact Or.inr (Or.inr ⟨current, u, hwscur, hu, rfl⟩)

theorem subLoop_result_nil (tok : Str → Nat) (maxT : Nat) :
    ∀ (us chunks : List Str) (current : Str),
      (Chunker.subLoop tok maxT us chunks current).1 = [] →
      chunks = [] ∧
      (Chunker.subLoop tok maxT us chunks current).2 = current ++ us.flatten := by
  intro us
  induction us with
  | nil =>
    intro chunks current h
    exact ⟨h, by simp [Chunker.subLoop]⟩
  | cons u rest ih =>
    intro chunks current h
    rw [subLoop_cons] at h
    by_cases hcond : tok (current ++ u) > maxT ∧ pyStrip current ≠ []
    · rw [if_pos hcond] at h
      have := (ih _ _ h).1
      simp at this
    · rw [if_neg hcond] at h
      obtain ⟨h1, h2⟩ := ih _ _ h
      refine ⟨h1, ?_⟩
      rw [subLoop_cons, if_neg hcond, h2]
      simp [List.flatten_cons]

theorem matchSubsecAt_len_pos (rest : Str) (len : Nat)
    (h : Chunker.matchSubsecAt rest = some len) : 0 < len := by
  simp only [Chunker.matchSubsecAt] at h
  split at h
  · rename_i r2 heq
    split at h
    · cases h
    · split at h
      · simp only [Option.some.injEq] at h
        omega
      · split at h
        · simp only [Option.some.injEq] at h
          omega
        · cases h
      · cases h
  · cases h

theorem subsecMatchAt_pos (cs : Str) (p : Nat) (a : Unit) (k : Nat)
    (h : Chunker.subsecMatchAt cs p = some (a, k)) : 0 < k := by
  unfold Chunker.subsecMatchAt at h
  by_cases hl : Chunker.isLineStart cs p
  · rw [if_pos hl] at h
    cases hm : Chunker.matchSubsecAt (cs.drop p) with
    | some len =>
      rw [hm] at h
      simp only [Option.map_some', Option.some.injEq, Prod.mk.injEq] at h
      rw [← h.2]
      exact matchSubsecAt_len_pos _ _ hm
    | none => rw [hm] at h; simp at h
  · rw [if_neg hl] at h
    simp at h

theorem flatten_slicesFrom (cs : Str) :
    ∀ starts : List Nat, List.Chain' (fun a b => a ≤ b) starts →
      ∀ a0, starts.head? = some a0 →
      (Chunker.slicesFrom cs starts).flatten = cs.drop a0 := by
  intro starts
  induction starts with
  | nil => intro _ a0 h; simp at h
  | cons a t ih =>
    intro hchain a0 ha0
    simp only [List.head?_cons, Option.some.injEq] at ha0
    subst ha0
    cases t with
    | nil => simp [Chunker.slicesFrom]
    | cons b t2 =>
      rw [List.chain'_cons] at hchain
      obtain ⟨hab, hchain'⟩ := hchain
      show (Chunker.slice cs a b :: Chunker.slicesFrom cs (b :: t2)).flatten = cs.drop a
      rw [List.flatten_cons, ih hchain' b (by simp)]
      unfold Chunker.slice
      have hdd : (cs.drop a).drop (b - a) = cs.drop b := by
        rw [List.drop_drop]
        congr 1
        omega
      rw [← hdd]
      exact List.take_append_drop _ _

theorem pyStrip_nil : pyStrip [] = [] := rfl

/-- **C5 (amended).**  For a tokenizer that never counts a
whitespace-trimmed string higher than the original, splitting a section
whose token count exceeds `max_tokens` yields one or more sub-chunks (not
necessarily two), and every sub-chunk either has token count at or below
`max_tokens`, or is the whitespace-trim of a single indivisible segment
(one paragraph, the text before the first subsection marker, or one
subsection unit), or is entirely whitespace. -/
theorem split_large_section_segments_bound (tok : Str → Nat) (sectionText : Str)
    (maxT : Nat) (hstrip : ∀ s, tok (pyStrip s) ≤ tok s)
    (hbig : tok sectionText > maxT) :
    Chunker.splitLargeSection tok sectionText maxT ≠ [] ∧
    ∀ c ∈ Chunker.splitLargeSection tok sectionText maxT,
      tok c ≤ maxT ∨ (∃ seg ∈ segments sectionText, c = pyStrip seg) ∨ pyStrip c = [] := by
  unfold Chunker.splitLargeSection
  rw [if_neg (by omega : ¬ tok sectionText ≤ maxT)]
  rcases hsubs : Chunker.subsecSpans sectionText with _ | ⟨sp, rest⟩
  · have hseg : segments sectionText = splitParas sectionText := by
      unfold segments
      rw [hsubs]
    dsimp only
    obtain ⟨hg, hinv⟩ := paraLoop_spec tok maxT (splitParas sectionText) hstrip
      (splitParas sectionText) [] [] (fun p hp => hp) (Or.inl rfl) (by simp)
    rw [hseg]
    by_cases hst : pyStrip (Chunker.paraLoop tok maxT (splitParas sectionText) [] []).2 ≠ []
    · rw [if_pos hst]
      have hne : (Chunker.paraLoop tok maxT (splitParas sectionText) [] []).1 ++
          [pyStrip (Chunker.paraLoop tok maxT (splitParas sectionText) [] []).2] ≠ [] := by
        simp
      rw [if_neg hne]
      refine ⟨hne, ?_⟩
      intro c hc
      rcases List.mem_append.mp hc with h1 | h1
      · exact hg c h1
      · simp only [List.mem_singleton] at h1
        subst h1
        rcases hinv with h2 | h2 | h2
        · rw [h2, pyStrip_nil] at hst
          exact absurd rfl hst
        · exact Or.inr (Or.inl ⟨_, h2, rfl⟩)
        · exact Or.inl (le_trans (hstrip _) h2)
    · rw [if_neg hst]
      by_cases hnil : (Chunker.paraLoop tok maxT (splitParas sectionText) [] []).1 = []
      · rw [if_pos hnil]
        refine ⟨by simp, ?_⟩
        intro c hc
        simp only [List.mem_singleton] at hc
        rw [hc]
        refine Or.inr (Or.inr ?_)
        obtain ⟨-, himp⟩ := paraLoop_result_nil tok maxT (splitParas sectionText) [] [] hnil
        have hstripnil : pyStrip (Chunker.paraLoop tok maxT (splitParas sectionText) [] []).2
            = [] := not_not.mp hst
        obtain ⟨-, hallparas⟩ := himp ((pyStrip_eq_nil_iff _).mp hstripnil)
        apply (pyStrip_eq_nil_iff sectionText).mpr
        intro ch hch
        rcases mem_splitParas_char sectionText ch hch with h3 | ⟨p, hp, hchp⟩
        · subst h3; decide
        · exact hallparas p hp ch hchp
      · rw [if_neg hnil]
        exact ⟨hnil, hg⟩
  · have hseg : segments sectionText = sectionText.take sp.start ::
        Chunker.slicesFrom sectionText ((sp :: rest).map (fun s => s.start)) := by
      unfold segments
      rw [hsubs]
    dsimp only
    have hunits : ∀ u ∈ Chunker.slicesFrom sectionText ((sp :: rest).map (fun s => s.start)),
        u ∈ segments sectionText := by
      rw [hseg]
      exact fun u hu => List.mem_cons_of_mem _ hu
    have hpre : sectionText.take sp.start ∈ segments sectionText := by
      rw [hseg]
      exact List.mem_cons_self _ _
    obtain ⟨hg, hinv⟩ := subLoop_spec tok maxT (segments sectionText) hstrip
      (Chunker.slicesFrom sectionText ((sp :: rest).map (fun s => s.start))) []
      (sectionText.take sp.start) hunits
      (Or.inr (Or.inr ⟨[], sectionText.take sp.start, by simp, hpre, by simp⟩)) (by simp)
    by_cases hst : pyStrip (Chunker.subLoop tok maxT
        (Chunker.slicesFrom sectionText ((sp :: rest).map (fun s => s.start))) []
        (sectionText.take sp.start)).2 ≠ []
    · rw [if_pos hst]
      have hne : (Chunker.subLoop tok maxT
          (Chunker.slicesFrom sectionText ((sp :: rest).map (fun s => s.start))) []
          (sectionText.take sp.start)).1 ++
          [pyStrip (Chunker.subLoop tok maxT
            (Chunker.slicesFrom sectionText ((sp :: rest).map (fun s => s.start))) []
            (sectionText.take sp.start)).2] ≠ [] := by
        simp
      rw [if_neg hne]
      refine ⟨hne, ?_⟩
      intro c hc
      rcases List.mem_append.mp hc with h1 | h1
      · exact hg c h1
      · simp only [List.mem_singleton] at h1
        subst h1
        rcases hinv with h2 | h2 | ⟨ws, seg, hws, hsegm, heq⟩
        · rw [h2, pyStrip_nil] at hst
          exact absurd rfl hst
        · exact Or.inl (le_trans (hstrip _) h2)
        · rw [heq, pyStrip_ws_append ws seg hws]
          exact Or.inr (Or.inl ⟨seg, hsegm, rfl⟩)
    · rw [if_neg hst]
      by_cases hnil : (Chunker.subLoop tok maxT
          (Chunker.slicesFrom sectionText ((sp :: rest).map (fun s => s.start))) []
          (sectionText.take sp.start)).1 = []
      · rw [if_pos hnil]
        refine ⟨by simp, ?_⟩
        intro c hc
        simp only [List.mem_singleton] at hc
        rw [hc]
        refine Or.inr (Or.inr ?_)
        obtain ⟨-, hjoin⟩ := subLoop_result_nil tok maxT
          (Chunker.slicesFrom sectionText ((sp :: rest).map (fun s => s.start))) []
          (sectionText.take sp.start) hnil
        have hchain : List.Chain' (fun a b : Nat => a ≤ b)
            ((sp :: rest).map (fun s => s.start)) := by
          have hch := finditer_chain Chunker.subsecMatchAt sectionText
            (fun p a k h => subsecMatchAt_pos sectionText p a k h)
          rw [show Chunker.finditer Chunker.subsecMatchAt sectionText = sp :: rest from hsubs]
            at hch
          rw [List.chain'_map]
          exact hch.imp (fun _ _ hab => le_of_lt hab)
        have hflat := flatten_slicesFrom sectionText ((sp :: rest).map (fun s => s.start))
          hchain sp.start (by simp)
        rw [hflat, List.take_append_drop] at hjoin
        have hstripnil : pyStrip (Chunker.subLoop tok maxT
            (Chunker.slicesFrom sectionText ((sp :: rest).map (fun s => s.start))) []
            (sectionText.take sp.start)).2 = [] := not_not.mp hst
        rw [hjoin] at hstripnil
        exact hstripnil
      · rw [if_neg hnil]
        exact ⟨hnil, hg⟩

theorem tokLen_pyStrip_le (s : Str) : tokLen (pyStrip s) ≤ tokLen s := by
  unfold tokLen pyStrip
  simp only [List.length_reverse]
  exact le_trans (length_dropWhile_le _ _)
    (by simpa using length_dropWhile_le isPySpace s)

/-- Witness for **C5 (amended)**: the character-count tokenizer never
counts a trimmed string higher, `"ab\n\ncd"` has 6 > 3 tokens, and the
split output is nonempty. -/
theorem split_large_section_segments_bound_witness :
    tokLen "ab\n\ncd".data > 3 ∧
    Chunker.splitLargeSection tokLen "ab\n\ncd".data 3 ≠ [] :=
  ⟨by decide, (split_large_section_segments_bound tokLen "ab\n\ncd".data 3
    tokLen_pyStrip_le (by decide)).1⟩

/-- Counterexample for **C5** as stated: the section `"(1) abcdef"` has 10
> 3 tokens (character count) and contains a valid split point (the
subsection marker `(1)` at line start), yet `split_large_section` returns
a single chunk — the whole section, still above `max_tokens`: the marker
sits at offset 0, so the text before it is empty and the
accumulate-and-flush loop never flushes. -/
theorem split_large_section_counterexample :
    tokLen secTextC5 > 3 ∧
    Chunker.subsecSpans secTextC5 ≠ [] ∧
    Chunker.splitLargeSection tokLen secTextC5 3 = [secTextC5] ∧
    ¬ 2 ≤ (Chunker.splitLargeSection tokLen secTextC5 3).length ∧
    ¬ ∀ c ∈ Chunker.splitLargeSection tokLen secTextC5 3, tokLen c ≤ 3 := by
  refine ⟨by decide, by decide, by decide, by decide, ?_⟩
  intro h
  exact absurd (h secTextC5 (by decide)) (by decide)

/-! ## Helper lemmas: decimal strings and chunk-id shapes -/

theorem natStrAux_ne_nil : ∀ (fuel n : Nat), n < fuel → natStrAux fuel n ≠ [] := by
  intro fuel
  induction fuel with
  | zero => intro n h; omega
  | succ fuel ih =>
    intro n h
    unfold natStrAux
    by_cases h10 : n < 10
    · rw [if_pos h10]; simp
    · rw [if_neg h10]; simp

theorem natStrAux_digits : ∀ (fuel n : Nat), n < fuel →
    ∀ c ∈ natStrAux fuel n, c.isDigit = true := by
  intro fuel
  induction fuel with
  | zero => intro n h; omega
  | succ fuel ih =>
    intro n h c hc
    unfold natStrAux at hc
    by_cases h10 : n < 10
    · rw [if_pos h10] at hc
      simp only [List.mem_singleton] at hc
      subst hc
      interval_cases n <;> decide
    · rw [if_neg h10] at hc
      rcases List.mem_append.mp hc with h1 | h1
      · have hlt : n / 10 < fuel := by omega
        exact ih (n / 10) hlt c h1
      · simp only [List.mem_singleton] at h1
        subst h1
        have hm : n % 10 < 10 := Nat.mod_lt _ (by omega)
        interval_cases h : (n % 10) <;> simp [h]

theorem char_digit_toNat (d : Nat) (h : d < 10) : (Char.ofNat (48 + d)).toNat = 48 + d := by
  interval_cases d <;> decide

theorem natStrAux_inj : ∀ (fuel1 : Nat), ∀ (fuel2 m n : Nat), m < fuel1 → n < fuel2 →
    natStrAux fuel1 m = natStrAux fuel2 n → m = n := by
  intro fuel1
  induction fuel1 with
  | zero => intro fuel2 m n h1; omega
  | succ fuel1 ih =>
    intro fuel2 m n h1 h2 heq
    cases fuel2 with
    | zero => omega
    | succ fuel2 =>
      unfold natStrAux at heq
      by_cases hm : m < 10
      · by_cases hn : n < 10
        · rw [if_pos hm, if_pos hn] at heq
          simp only [List.cons.injEq] at heq
          have := congrArg Char.toNat heq.1
          rw [char_digit_toNat m hm, char_digit_toNat n hn] at this
          omega
        · rw [if_pos hm, if_neg hn] at heq
          have hne := natStrAux_ne_nil fuel2 (n / 10) (by omega)
          cases hx : natStrAux fuel2 (n / 10) with
          | nil => exact absurd hx hne
          | cons x xs =>
            rw [hx] at heq
            have := congrArg List.length heq
            simp at this
      · by_cases hn : n < 10
        · rw [if_neg hm, if_pos hn] at heq
          have hne := natStrAux_ne_nil fuel1 (m / 10) (by omega)
          cases hx : natStrAux fuel1 (m / 10) with
          | nil => exact absurd hx hne
          | cons x xs =>
            rw [hx] at heq
            have := congrArg List.length heq
            simp at this
        · rw [if_neg hm, if_neg hn] at heq
          have hinj := List.append_inj' heq (by rfl)
          obtain ⟨hpre, hlastc⟩ := hinj
          simp only [List.cons.injEq] at hlastc
          have hmod := congrArg Char.toNat hlastc.1
          rw [char_digit_toNat (m % 10) (Nat.mod_lt _ (by omega)),
            char_digit_toNat (n % 10) (Nat.mod_lt _ (by omega))] at hmod
          have hdiv := ih fuel2 (m / 10) (n / 10) (by omega) (by omega) hpre
          omega

theorem natStr_ne_nil (n : Nat) : natStr n ≠ [] := natStrAux_ne_nil (n + 1) n (by omega)

theorem natStr_digits (n : Nat) : ∀ c ∈ natStr n, c.isDigit = true :=
  natStrAux_digits (n + 1) n (by omega)

theorem natStr_inj (m n : Nat) (h : natStr m = natStr n) : m = n :=
  natStrAux_inj (m + 1) (n + 1) m n (by omega) (by omega) h

theorem natStr_no_underscore (n : Nat) : ∀ c ∈ natStr n, c ≠ '_' := by
  intro c hc hu
  have := natStr_digits n c hc
  rw [hu] at this
  simp at this

theorem secOK_no_underscore {sec : Str} (h : secOK sec) : ∀ c ∈ sec, c ≠ '_' := by
  intro c hc hu
  have := h.2 c hc
  rw [hu] at this
  simp at this

theorem sep_append_inj {a b r s : Str}
    (ha : ∀ c ∈ a, c ≠ '_') (hb : ∀ c ∈ b, c ≠ '_')
    (hr : r = [] ∨ ∃ t, r = '_' :: t) (hs : s = [] ∨ ∃ t, s = '_' :: t)
    (h : a ++ r = b ++ s) : a = b ∧ r = s := by
  induction a generalizing b with
  | nil =>
    cases b with
    | nil => exact ⟨rfl, h⟩
    | cons c b2 =>
      simp only [List.nil_append] at h
      rcases hr with h1 | ⟨t, h1⟩
      · rw [h1] at h
        cases h
      · rw [h1] at h
        have hc : c = '_' := by
          have := congrArg List.head? h
          simpa using this.symm
        exact absurd hc (hb c (List.mem_cons_self _ _))
  | cons c a2 ih =>
    cases b with
    | nil =>
      simp only [List.nil_append] at h
      rcases hs with h1 | ⟨t, h1⟩
      · rw [h1] at h
        cases h
      · rw [h1] at h
        have hc : c = '_' := by
          have := congrArg List.head? h
          simpa using this
        exact absurd hc (ha c (List.mem_cons_self _ _))
    | cons c2 b2 =>
      simp only [List.cons_append, List.cons.injEq] at h
      obtain ⟨hcc, h2⟩ := h
      have := ih (fun x hx => ha x (List.mem_cons_of_mem _ hx))
        (fun x hx => hb x (List.mem_cons_of_mem _ hx)) h2
      exact ⟨by rw [hcc, this.1], this.2⟩

theorem mem_insAsc {α : Type} (key : α → Nat) (x : α) (l : List α) (z : α) :
    z ∈ insAsc key x l ↔ z = x ∨ z ∈ l := by
  induction l with
  | nil => simp [insAsc]
  | cons y ys ih =>
    by_cases h : key y ≤ key x
    · simp only [insAsc, if_pos h, List.mem_cons, ih]
      tauto
    · simp [insAsc, if_neg h]

theorem mem_sortAscBy {α : Type} (key : α → Nat) (l : List α) (z : α)
    (h : z ∈ sortAscBy key l) : z ∈ l := by
  have main : ∀ (l acc : List α) (z : α),
      z ∈ l.foldl (fun acc x => insAsc key x acc) acc → z ∈ acc ∨ z ∈ l := by
    intro l
    induction l with
    | nil => intro acc z h; exact Or.inl h
    | cons x rest ih =>
      intro acc z h
      rcases ih _ _ h with h1 | h1
      · rcases (mem_insAsc key x acc z).mp h1 with rfl | h2
        · exact Or.inr (List.mem_cons_self _ _)
        · exact Or.inl h2
      · exact Or.inr (List.mem_cons_of_mem _ h1)
  rcases main l [] z h with h1 | h1
  · simp at h1
  · exact h1

theorem finditerAux_val {α : Type} (matchAt : Str → Nat → Option (α × Nat)) (cs : Str)
    (P : α → Prop) (hP : ∀ p a k, matchAt cs p = some (a, k) → P a) :
    ∀ (fuel p : Nat) (sp : Chunker.Span α), sp ∈ Chunker.finditerAux matchAt cs p fuel →
      P sp.val := by
  intro fuel
  induction fuel with
  | zero => intro p sp h; simp [Chunker.finditerAux] at h
  | succ fuel ih =>
    intro p sp h
    unfold Chunker.finditerAux at h
    by_cases hp : p < cs.length
    · rw [if_pos hp] at h
      cases hm : matchAt cs p with
      | some al =>
        rw [hm] at h
        rcases List.mem_cons.mp h with h1 | h2
        · subst h1; exact hP p al.1 al.2 (by rw [hm])
        · exact ih _ _ h2
      | none =>
        rw [hm] at h
        exact ih _ _ h
    · rw [if_neg hp] at h
      simp at h

theorem assignEnds_num (textLen : Nat) :
    ∀ (es : List (Chunker.SecMatchData × Nat)) (s : Chunker.SectionInfo),
      s ∈ Chunker.assignEnds textLen es → ∃ e ∈ es, s.section_number = e.1.num := by
  intro es
  induction es with
  | nil => intro s h; simp [Chunker.assignEnds] at h
  | cons e t ih =>
    cases t with
    | nil =>
      intro s h
      obtain ⟨m, st⟩ := e
      simp only [Chunker.assignEnds, List.mem_singleton] at h
      subst h
      exact ⟨(m, st), List.mem_singleton_self _, rfl⟩
    | cons e2 t2 =>
      intro s h
      obtain ⟨m, st⟩ := e
      obtain ⟨m2, st2⟩ := e2
      simp only [Chunker.assignEnds, List.mem_cons] at h
      rcases h with h1 | h1
      · subst h1
        exact ⟨(m, st), List.mem_cons_self _ _, rfl⟩
      · obtain ⟨e3, he3, hn⟩ := ih s h1
        exact ⟨e3, List.mem_cons_of_mem _ he3, hn⟩

theorem matchSectionA_secOK (rest : Str) (m : Chunker.SecMatchData)
    (h : Chunker.matchSectionA rest = some m) : secOK m.num := by
  simp only [Chunker.matchSectionA] at h
  split at h
  · split at h
    · rename_i hcond
      simp only [Option.some.injEq] at h
      subst h
      simp only [Bool.and_eq_true, decide_eq_true_eq] at hcond
      simp only [secOK]
      refine ⟨?_, ?_⟩
      · intro hnil
        rcases List.append_eq_nil.mp hnil with ⟨hd, -⟩
        rw [hd] at hcond
        simp at hcond
      · intro c hc
        rcases List.mem_append.mp hc with hc1 | hc1
        · have hd := List.mem_takeWhile_imp hc1
          simp [Char.isAlphanum, hd]
        · have ha := List.mem_takeWhile_imp hc1
          simp [Char.isAlphanum, ha]
    · cases h
  · cases h

theorem matchSectionB_secOK (rest : Str) (m : Chunker.SecMatchData)
    (h : Chunker.matchSectionB rest = some m) : secOK m.num := by
  simp only [Chunker.matchSectionB] at h
  split at h
  · rename_i hcond
    split at h
    · simp only [Option.some.injEq] at h
      subst h
      simp only [secOK]
      refine ⟨?_, ?_⟩
      · intro hnil
        rcases List.append_eq_nil.mp hnil with ⟨hd, -⟩
        rw [hd] at hcond
        simp at hcond
      · intro c hc
        rcases List.mem_append.mp hc with hc1 | hc1
        · have hd := List.mem_takeWhile_imp hc1
          simp [Char.isAlphanum, hd]
        · have ha := List.mem_takeWhile_imp hc1
          simp [Char.isAlphanum, ha]
    · cases h
  · cases h

theorem matchSectionAt_secOK (rest : Str) (m : Chunker.SecMatchData)
    (h : Chunker.matchSectionAt rest = some m) : secOK m.num := by
  unfold Chunker.matchSectionAt at h
  cases hA : Chunker.matchSectionA rest with
  | some m' =>
    rw [hA] at h
    simp only [Option.some.injEq] at h
    exact h ▸ matchSectionA_secOK rest m' hA
  | none =>
    rw [hA] at h
    exact matchSectionB_secOK rest m h

theorem sectionMatchAt_secOK (cs : Str) (p : Nat) (a : Chunker.SecMatchData) (k : Nat)
    (h : Chunker.sectionMatchAt cs p = some (a, k)) : secOK a.num := by
  unfold Chunker.sectionMatchAt at h
  by_cases hl : Chunker.isLineStart cs p
  · rw [if_pos hl] at h
    cases hm : Chunker.matchSectionAt (cs.drop p) with
    | some m =>
      rw [hm] at h
      simp only [Option.map_some', Option.some.injEq, Prod.mk.injEq] at h
      exact h.1 ▸ matchSectionAt_secOK _ m hm
    | none => rw [hm] at h; cases h
  · rw [if_neg hl] at h
    cases h

theorem findSections_secOK (cs : Str) :
    ∀ s ∈ Chunker.findSections cs, secOK s.section_number := by
  intro s hs
  unfold Chunker.findSections at hs
  obtain ⟨e, he, hn⟩ := assignEnds_num cs.length _ s hs
  have he2 := mem_sortAscBy _ _ _ he
  obtain ⟨sp, hsp, hspe⟩ := List.mem_map.mp he2
  have hval : secOK sp.val.num := by
    refine finditerAux_val Chunker.sectionMatchAt cs (fun a => secOK a.num) ?_ _ _ sp hsp
    intro p a k h
    exact sectionMatchAt_secOK cs p a k h
  rw [hn, ← hspe]
  exact hval

theorem dupSuf_ne_nil (j : Nat) : dupSuf j ≠ [] := by
  simp [dupSuf]

theorem idxSuf_dup_sep (i : Option Nat) (d : Str) (hd : d = [] ∨ ∃ j, d = dupSuf j) :
    idxSuf i ++ d = [] ∨ ∃ t, idxSuf i ++ d = '_' :: t := by
  cases i with
  | none =>
    rcases hd with rfl | ⟨j, rfl⟩
    · exact Or.inl rfl
    · exact Or.inr ⟨"dup".data ++ natStr j, rfl⟩
  | some k => exact Or.inr ⟨natStr k ++ d, rfl⟩

theorem dupSuf_inj {j j' : Nat} (h : dupSuf j = dupSuf j') : j = j' := by
  simp only [dupSuf] at h
  exact natStr_inj j j' (List.append_inj_right h rfl)

theorem idSuffix_inj (i i' : Option Nat) (d d' : Str)
    (hd : d = [] ∨ ∃ j, d = dupSuf j) (hd' : d' = [] ∨ ∃ j, d' = dupSuf j)
    (h : idxSuf i ++ d = idxSuf i' ++ d') : i = i' ∧ d = d' := by
  cases i with
  | none =>
    cases i' with
    | none => exact ⟨rfl, h⟩
    | some m =>
      exfalso
      simp only [idxSuf, List.nil_append, List.cons_append] at h
      rcases hd with rfl | ⟨j, rfl⟩
      · cases h
      · simp only [dupSuf] at h
        have h2 : "dup".data ++ natStr j = natStr m ++ d' := by
          have := List.cons.inj h
          exact this.2
        cases hm : natStr m with
        | nil => exact natStr_ne_nil m hm
        | cons c cs =>
          rw [hm] at h2
          have hc : 'd' = c := (List.cons.inj h2).1
          have hcd := natStr_digits m c (by rw [hm]; exact List.mem_cons_self _ _)
          rw [← hc] at hcd
          simp at hcd
  | some k =>
    cases i' with
    | none =>
      exfalso
      simp only [idxSuf, List.nil_append, List.cons_append] at h
      rcases hd' with rfl | ⟨j, rfl⟩
      · cases h
      · simp only [dupSuf] at h
        have h2 : natStr k ++ d = "dup".data ++ natStr j := by
          have := List.cons.inj h
          exact this.2
        cases hm : natStr k with
        | nil => exact natStr_ne_nil k hm
        | cons c cs =>
          rw [hm] at h2
          have hc : c = 'd' := (List.cons.inj h2).1
          have hcd := natStr_digits k c (by rw [hm]; exact List.mem_cons_self _ _)
          rw [hc] at hcd
          simp at hcd
    | some m =>
      simp only [idxSuf, List.cons_append] at h
      have h2 : natStr k ++ d = natStr m ++ d' := (List.cons.inj h).2
      have := sep_append_inj (natStr_no_underscore k) (natStr_no_underscore m)
        (by
          rcases hd with rfl | ⟨j, rfl⟩
          · exact Or.inl rfl
          · exact Or.inr ⟨"dup".data ++ natStr j, rfl⟩)
        (by
          rcases hd' with rfl | ⟨j, rfl⟩
          · exact Or.inl rfl
          · exact Or.inr ⟨"dup".data ++ natStr j, rfl⟩)
        h2
      exact ⟨by rw [natStr_inj k m this.1], this.2⟩

theorem baseId_dup_inj (n : Int) (s s' : Str) (i i' : Option Nat) (d d' : Str)
    (hs : secOK s) (hs' : secOK s')
    (hd : d = [] ∨ ∃ j, d = dupSuf j) (hd' : d' = [] ∨ ∃ j, d' = dupSuf j)
    (h : baseId n s i ++ d = baseId n s' i' ++ d') :
    s = s' ∧ i = i' ∧ d = d' := by
  simp only [baseId, List.append_assoc, List.cons_append, List.nil_append,
    List.cons.injEq, true_and] at h
  have h2 := List.append_inj_right h rfl
  have h4 : (s ++ (idxSuf i ++ d)) = (s' ++ (idxSuf i' ++ d')) := by
    simpa [List.cons.injEq] using h2
  have h5 := sep_append_inj (secOK_no_underscore hs) (secOK_no_underscore hs')
    (idxSuf_dup_sep i d hd) (idxSuf_dup_sep i' d' hd') h4
  have h6 := idSuffix_inj i i' d d' hd hd' h5.2
  exact ⟨h5.1, h6.1, h6.2⟩

theorem preId_ne_baseId_app (n : Int) (s : Str) (i : Option Nat) (d : Str) :
    preId n ≠ baseId n s i ++ d := by
  intro h
  simp only [preId, baseId, List.append_assoc, List.cons_append, List.nil_append,
    List.cons.injEq, true_and] at h
  have h2 := List.append_inj_right h rfl
  simp [List.cons.injEq] at h2

theorem alookup_some_mem {α : Type} (d : List (Str × α)) (k : Str) (v : α)
    (h : alookup d k = some v) : (k, v) ∈ d := by
  induction d with
  | nil => simp [alookup] at h
  | cons kv rest ih =>
    obtain ⟨k0, v0⟩ := kv
    by_cases h0 : k0 = k
    · subst h0
      simp [alookup] at h
      subst h
      exact List.mem_cons_self _ _
    · simp only [alookup, if_neg h0] at h
      exact List.mem_cons_of_mem _ (ih h)

theorem alookup_mem_keys {α : Type} (d : List (Str × α)) (k : Str) (v : α)
    (h : alookup d k = some v) : k ∈ d.map Prod.fst := by
  have := alookup_some_mem d k v h
  exact List.mem_map.mpr ⟨(k, v), this, rfl⟩

theorem alookup_of_mem_nodup {α : Type} (d : List (Str × α))
    (hnd : (d.map Prod.fst).Nodup) (kv : Str × α) (h : kv ∈ d) :
    alookup d kv.1 = some kv.2 := by
  induction d with
  | nil => simp at h
  | cons kv0 rest ih =>
    obtain ⟨k0, v0⟩ := kv0
    simp only [List.map_cons, List.nodup_cons] at hnd
    rcases List.mem_cons.mp h with h1 | h1
    · subst h1
      simp [alookup]
    · have hne : k0 ≠ kv.1 := by
        intro he
        exact hnd.1 (he ▸ List.mem_map.mpr ⟨kv, h1, rfl⟩)
      simp only [alookup, if_neg hne]
      exact ih hnd.2 h1

theorem aset_map_fst_of_mem {α : Type} (d : List (Str × α)) (k : Str) (v : α)
    (h : k ∈ d.map Prod.fst) : (aset d k v).map Prod.fst = d.map Prod.fst := by
  induction d with
  | nil => simp at h
  | cons kv0 rest ih =>
    obtain ⟨k0, v0⟩ := kv0
    by_cases h0 : k0 = k
    · simp [aset, h0]
    · simp only [List.map_cons] at h
      rcases List.mem_cons.mp h with h1 | h1
      · exact absurd h1.symm h0
      · simp [aset, h0, ih h1]

theorem mem_aset_self {α : Type} (d : List (Str × α)) (k : Str) (v : α)
    (h : k ∈ d.map Prod.fst) : (k, v) ∈ aset d k v := by
  induction d with
  | nil => simp at h
  | cons kv0 rest ih =>
    obtain ⟨k0, v0⟩ := kv0
    by_cases h0 : k0 = k
    · simp [aset, h0]
    · simp only [List.map_cons] at h
      rcases List.mem_cons.mp h with h1 | h1
      · exact absurd h1.symm h0
      · simp only [aset, if_neg h0]
        exact List.mem_cons_of_mem _ (ih h1)

theorem mem_aset_of_ne {α : Type} (d : List (Str × α)) (k : Str) (v : α)
    (kv : Str × α) (hmem : kv ∈ d) (hne : kv.1 ≠ k) : kv ∈ aset d k v := by
  induction d with
  | nil => simp at hmem
  | cons kv0 rest ih =>
    obtain ⟨k0, v0⟩ := kv0
    by_cases h0 : k0 = k
    · simp only [aset, if_pos h0]
      rcases List.mem_cons.mp hmem with h1 | h1
      · exfalso
        apply hne
        rw [h1, ← h0]
      · exact List.mem_cons_of_mem _ h1
    · simp only [aset, if_neg h0]
      rcases List.mem_cons.mp hmem with h1 | h1
      · exact h1 ▸ List.mem_cons_self _ _
      · exact List.mem_cons_of_mem _ (ih h1)

theorem base_id_shape (n : Int) (s : Str) (i : Nat) (b : Prop) [Decidable b] :
    "act_".data ++ intStr n ++ "_s".data ++ s ++ (if b then '_' :: natStr i else []) =
    baseId n s (if b then some i else none) := by
  by_cases hb : b <;>
    simp [hb, baseId, idxSuf, List.append_assoc]

theorem pre_id_shape (n : Int) :
    "act_".data ++ intStr n ++ "_preamble".data = preId n := by
  simp [preId, List.append_assoc]

theorem fresh_base_not_emitted (n : Int) (seen : List (Str × Nat)) (s : Str) (i : Option Nat)
    (hs : secOK s) (hseen : SeenOK n seen) (hnone : alookup seen (baseId n s i) = none)
    (id : Str) (hid : EmittedId n seen id) : id ≠ baseId n s i := by
  intro he
  rcases hid with hpre | ⟨p, hp, hcase⟩
  · rw [hpre] at he
    refine preId_ne_baseId_app n s i [] ?_
    rw [List.append_nil]
    exact he
  · obtain ⟨s', i', hs', hb⟩ := hseen.2 p hp
    rcases hcase with h1 | ⟨j, hj1, hj2, h1⟩
    · rw [h1] at he
      exact (alookup_eq_none seen (baseId n s i)).mp hnone p hp (he ▸ rfl)
    · rw [h1, hb] at he
      have he2 : baseId n s' i' ++ dupSuf j = baseId n s i ++ [] := by
        rw [List.append_nil]; exact he
      have h3 := baseId_dup_inj n s' s i' i (dupSuf j) [] hs' hs
        (Or.inr ⟨j, rfl⟩) (Or.inl rfl) he2
      exact dupSuf_ne_nil j h3.2.2

theorem dup_id_not_emitted (n : Int) (seen : List (Str × Nat)) (s : Str) (i : Option Nat)
    (c : Nat) (hs : secOK s) (hseen : SeenOK n seen)
    (hsome : alookup seen (baseId n s i) = some c)
    (id : Str) (hid : EmittedId n seen id) : id ≠ baseId n s i ++ dupSuf (c + 1) := by
  intro he
  rcases hid with hpre | ⟨p, hp, hcase⟩
  · rw [hpre] at he
    exact preId_ne_baseId_app n s i (dupSuf (c + 1)) he
  · obtain ⟨s', i', hs', hb⟩ := hseen.2 p hp
    rcases hcase with h1 | ⟨j, hj1, hj2, h1⟩
    · rw [h1, hb] at he
      have he2 : baseId n s' i' ++ [] = baseId n s i ++ dupSuf (c + 1) := by
        rw [List.append_nil]; exact he
      have h3 := baseId_dup_inj n s' s i' i [] (dupSuf (c + 1)) hs' hs
        (Or.inl rfl) (Or.inr ⟨c + 1, rfl⟩) he2
      exact dupSuf_ne_nil (c + 1) h3.2.2.symm
    · rw [h1, hb] at he
      have h3 := baseId_dup_inj n s' s i' i (dupSuf j) (dupSuf (c + 1)) hs' hs
        (Or.inr ⟨j, rfl⟩) (Or.inr ⟨c + 1, rfl⟩) he
      have hj : j = c + 1 := dupSuf_inj h3.2.2
      have hpbase : p.1 = baseId n s i := by rw [hb, h3.1, h3.2.1]
      have hlook : alookup seen p.1 = some p.2 :=
        alookup_of_mem_nodup seen hseen.1 p hp
      rw [hpbase, hsome] at hlook
      have hc : p.2 = c := by injection hlook with h4; exact h4.symm
      omega

theorem chunkInv_snoc_fresh (n : Int) (chunks : List Chunker.LegalChunk)
    (seen : List (Str × Nat)) (s : Str) (i : Option Nat)
    (hs : secOK s) (hinv : ChunkInv n chunks seen)
    (hnone : alookup seen (baseId n s i) = none)
    (ck : Chunker.LegalChunk) (hck : ck.chunk_id = baseId n s i) :
    ChunkInv n (chunks ++ [ck]) (seen ++ [(baseId n s i, 0)]) := by
  obtain ⟨hnd, hsk, hemit⟩ := hinv
  have hfresh : ∀ id ∈ chunks.map (fun c => c.chunk_id), id ≠ baseId n s i :=
    fun id hid => fresh_base_not_emitted n seen s i hs hsk hnone id (hemit id hid)
  have hnotkey : baseId n s i ∉ seen.map Prod.fst := by
    intro hmem
    obtain ⟨p, hp, hpe⟩ := List.mem_map.mp hmem
    exact (alookup_eq_none seen (baseId n s i)).mp hnone p hp hpe
  refine ⟨?_, ⟨?_, ?_⟩, ?_⟩
  · rw [List.map_append]
    rw [List.nodup_append]
    refine ⟨hnd, by simp, ?_⟩
    intro id hid hid2
    simp only [List.map_cons, List.map_nil, List.mem_singleton] at hid2
    exact hfresh id hid (by rw [hid2, hck])
  · rw [List.map_append]
    rw [List.nodup_append]
    refine ⟨hsk.1, by simp, ?_⟩
    intro k hk hk2
    simp only [List.map_cons, List.map_nil, List.mem_singleton] at hk2
    exact hnotkey (hk2 ▸ hk)
  · intro p hp
    rcases List.mem_append.mp hp with h1 | h1
    · exact hsk.2 p h1
    · simp only [List.mem_singleton] at h1
      exact ⟨s, i, hs, by rw [h1]⟩
  · intro id hid
    rw [List.map_append] at hid
    rcases List.mem_append.mp hid with h1 | h1
    · rcases hemit id h1 with hpre | ⟨p, hp, hcase⟩
      · exact Or.inl hpre
      · exact Or.inr ⟨p, List.mem_append_left _ hp, hcase⟩
    · simp only [List.map_cons, List.map_nil, List.mem_singleton] at h1
      refine Or.inr ⟨(baseId n s i, 0), List.mem_append_right _ (List.mem_singleton_self _), ?_⟩
      exact Or.inl (by rw [h1, hck])

theorem chunkInv_snoc_dup (n : Int) (chunks : List Chunker.LegalChunk)
    (seen : List (Str × Nat)) (s : Str) (i : Option Nat) (c : Nat)
    (hs : secOK s) (hinv : ChunkInv n chunks seen)
    (hsome : alookup seen (baseId n s i) = some c)
    (ck : Chunker.LegalChunk) (hck : ck.chunk_id = baseId n s i ++ dupSuf (c + 1)) :
    ChunkInv n (chunks ++ [ck]) (aset seen (baseId n s i) (c + 1)) := by
  obtain ⟨hnd, hsk, hemit⟩ := hinv
  have hkey : baseId n s i ∈ seen.map Prod.fst := alookup_mem_keys seen _ c hsome
  have hkeys : (aset seen (baseId n s i) (c + 1)).map Prod.fst = seen.map Prod.fst :=
    aset_map_fst_of_mem seen _ _ hkey
  have hfresh : ∀ id ∈ chunks.map (fun cc => cc.chunk_id),
      id ≠ baseId n s i ++ dupSuf (c + 1) :=
    fun id hid => dup_id_not_emitted n seen s i c hs hsk hsome id (hemit id hid)
  refine ⟨?_, ⟨?_, ?_⟩, ?_⟩
  · rw [List.map_append]
    rw [List.nodup_append]
    refine ⟨hnd, by simp, ?_⟩
    intro id hid hid2
    simp only [List.map_cons, List.map_nil, List.mem_singleton] at hid2
    exact hfresh id hid (by rw [hid2, hck])
  · rw [hkeys]
    exact hsk.1
  · intro p hp
    rcases mem_aset seen (baseId n s i) (c + 1) p hp with h1 | h1
    · exact ⟨s, i, hs, by rw [h1]⟩
    · exact hsk.2 p h1
  · intro id hid
    rw [List.map_append] at hid
    rcases List.mem_append.mp hid with h1 | h1
    · rcases hemit id h1 with hpre | ⟨p, hp, hcase⟩
      · exact Or.inl hpre
      · by_cases hpb : p.1 = baseId n s i
        · have hlook : alookup seen p.1 = some p.2 :=
            alookup_of_mem_nodup seen hsk.1 p hp
          rw [hpb, hsome] at hlook
          have hc : p.2 = c := by injection hlook with h4; exact h4.symm
          refine Or.inr ⟨(baseId n s i, c + 1), mem_aset_self seen _ _ hkey, ?_⟩
          rcases hcase with h2 | ⟨j, hj1, hj2, h2⟩
          · exact Or.inl (by rw [h2, hpb])
          · exact Or.inr ⟨j, hj1, by omega, by rw [h2, hpb]⟩
        · refine Or.inr ⟨p, mem_aset_of_ne seen _ _ p hp hpb, hcase⟩
    · simp only [List.map_cons, List.map_nil, List.mem_singleton] at h1
      refine Or.inr ⟨(baseId n s i, c + 1), mem_aset_self seen _ _ hkey, ?_⟩
      exact Or.inr ⟨c + 1, by omega, le_refl _, by rw [h1, hck]⟩

theorem emitChunks_inv (tok : Str → Nat) (minT : Nat) (n : Int) (an : String)
    (sec : Chunker.SectionInfo) (part : Option Str) (nSub : Nat)
    (hsec : secOK sec.section_number) :
    ∀ (cts : List Str) (i : Nat) (chunks : List Chunker.LegalChunk)
      (seen : List (Str × Nat)), ChunkInv n chunks seen →
      ChunkInv n (Chunker.emitChunks tok minT n an sec part nSub cts i chunks seen).1
        (Chunker.emitChunks tok minT n an sec part nSub cts i chunks seen).2 := by
  intro cts
  induction cts with
  | nil => intro i chunks seen hinv; exact hinv
  | cons ct rest ih =>
    intro i chunks seen hinv
    unfold Chunker.emitChunks
    by_cases hm : tok ct < minT ∧ chunks ≠ []
    · rw [if_pos hm]
      apply ih
      obtain ⟨hnd, hsk, hemit⟩ := hinv
      have hmap := updateLast_map_eq (fun prev => Chunker.mergeSmall tok prev ct)
        (fun c => c.chunk_id) (fun x => rfl) chunks
      refine ⟨?_, hsk, ?_⟩
      · rw [hmap]; exact hnd
      · intro id hid
        rw [hmap] at hid
        exact hemit id hid
    · rw [if_neg hm]
      dsimp only
      rw [base_id_shape n sec.section_number (i + 1) (nSub > 1)]
      cases hlk : alookup seen
          (baseId n sec.section_number (if nSub > 1 then some (i + 1) else none)) with
      | some c =>
        dsimp only
        apply ih
        exact chunkInv_snoc_dup n chunks seen sec.section_number
          (if nSub > 1 then some (i + 1) else none) c hsec hinv hlk _
          (by rw [List.append_assoc]; rfl)
      | none =>
        dsimp only
        apply ih
        exact chunkInv_snoc_fresh n chunks seen sec.section_number
          (if nSub > 1 then some (i + 1) else none) hsec hinv hlk _ rfl

theorem sectionsLoop_nodup (tok : Str → Nat) (maxT minT : Nat) (n : Int) (an : String)
    (text : Str) :
    ∀ (secs : List Chunker.SectionInfo) (chunks : List Chunker.LegalChunk)
      (seen : List (Str × Nat)),
      (∀ s ∈ secs, secOK s.section_number) → ChunkInv n chunks seen →
      ((Chunker.sectionsLoop tok maxT minT n an text secs chunks seen).map
        (fun c => c.chunk_id)).Nodup := by
  intro secs
  induction secs with
  | nil => intro chunks seen hsec hinv; exact hinv.1
  | cons sec rest ih =>
    intro chunks seen hsec hinv
    unfold Chunker.sectionsLoop
    dsimp only
    apply ih _ _ (fun s hs => hsec s (List.mem_cons_of_mem _ hs))
    exact emitChunks_inv tok minT n an sec _ _ (hsec sec (List.mem_cons_self _ _))
      _ _ chunks seen hinv

/-- **C6.**  Within the chunk list produced by one `chunk_document` pass,
every `chunk_id` is unique: no two chunks of the output share an id, across
the preamble chunk, sub-chunk-index suffixes and `_dup` deduplication
suffixes. -/
theorem chunk_document_chunk_ids_unique (tok : Str → Nat) (document : Chunker.Document)
    (maxT minT : Nat) :
    ((Chunker.chunkDocument tok document maxT minT).map (fun c => c.chunk_id)).Nodup := by
  unfold Chunker.chunkDocument
  dsimp only
  cases hfs : Chunker.findSections ((document.cleaned_text).getD []) with
  | nil => simp
  | cons sec0 sections =>
    dsimp only
    have hsecOK : ∀ s ∈ sec0 :: sections, secOK s.section_number := by
      intro s hs
      rw [← hfs] at hs
      exact findSections_secOK _ s hs
    have hmain : ∀ pre : List Chunker.LegalChunk, ChunkInv (document.act_number.getD 0) pre [] →
        ((Chunker.sectionsLoop tok maxT minT (document.act_number.getD 0)
          (document.act_name.getD "Unknown Act") ((document.cleaned_text).getD [])
          (sec0 :: sections) pre []).map (fun c => c.chunk_id)).Nodup := by
      intro pre hinv
      exact sectionsLoop_nodup tok maxT minT _ _ _ (sec0 :: sections) pre [] hsecOK hinv
    by_cases hgt : sec0.start > 0
    · rw [if_pos hgt]
      by_cases hcond : pyStrip (((document.cleaned_text).getD []).take sec0.start) ≠ [] ∧
          tok (pyStrip (((document.cleaned_text).getD []).take sec0.start)) ≥ minT
      · rw [if_pos hcond]
        apply hmain
        refine ⟨by simp, ⟨by simp, by simp⟩, ?_⟩
        intro id hid
        simp only [List.map_cons, List.map_nil, List.mem_singleton] at hid
        exact Or.inl (by rw [hid]; exact (pre_id_shape (document.act_number.getD 0)).symm ▸ rfl)
      · rw [if_neg hcond]
        apply hmain
        exact ⟨by simp, ⟨by simp, by simp⟩, by simp⟩
    · rw [if_neg hgt]
      apply hmain
      exact ⟨by simp, ⟨by simp, by simp⟩, by simp⟩
